import Mathlib

/-!
Verification development for the three-geojson geometry engine.

The repository ships only the Storybook surface that exercises the library
(src/stories/Extruded.stories.ts); the core geometry engine itself
(GeoJSON parser, planar triangulator, boundary tessellator, solid mesh
builder) is not present under src/.  Every definition below that embeds a
missing component is therefore modelled from the specification (spec.md)
and marked as such in its doc comment.  Coordinates are rational numbers:
the spec works in degree-based longitude/latitude pairs, and rational
arithmetic keeps every predicate decidable.
-/

/-- Modelled from the spec: a Geodetic Coordinate is a (longitude, latitude)
pair in degrees (spec 3, "Geodetic Coordinate"); the optional altitude is
not retained by the parser model. -/
abbrev Coord : Type := ℚ × ℚ

/-- A 3D Cartesian point, the element type of the Mesh Output position and
normal buffers (spec 3, "Mesh Output"). -/
abbrev Pt3 : Type := ℚ × ℚ × ℚ

/-- Twice the signed area of the triangle (a, b, c): the 2D cross product
of (b - a) and (c - a).  Positive for a counter-clockwise turn. -/
def cross2 (a b c : Coord) : ℚ :=
  (b.1 - a.1) * (c.2 - a.2) - (b.2 - a.2) * (c.1 - a.1)

theorem cross2_swap (a b c : Coord) : cross2 a b c = -cross2 b a c := by
  unfold cross2; ring

/-- Modelled from the spec: the angular length of a ring edge, used by the
Boundary Tessellator to scale the number of subdivisions (spec 4.3: "N
scales monotonically with both the resolution parameter and the edge's
angular length").  Modelled as the degree-based taxicab length of the
edge, a monotone executable surrogate for the great-circle angle. -/
def angLen (p q : Coord) : ℚ := |q.1 - p.1| + |q.2 - p.2|

theorem angLen_nonneg (p q : Coord) : 0 ≤ angLen p q := by
  unfold angLen
  have h1 : (0:ℚ) ≤ |q.1 - p.1| := abs_nonneg _
  have h2 : (0:ℚ) ≤ |q.2 - p.2| := abs_nonneg _
  linarith

/-- Modelled from the spec: the number of sub-edges an edge is cut into at
a given resolution (spec 4.3).  At least one sub-edge is always kept, so a
resolution at or below zero leaves every edge whole. -/
def nSub (res : ℚ) (p q : Coord) : ℕ :=
  max 1 (⌈res * angLen p q⌉).toNat

/-- Linear interpolation between two geodetic coordinates. -/
def lerpC (p q : Coord) (t : ℚ) : Coord :=
  (p.1 + t * (q.1 - p.1), p.2 + t * (q.2 - p.2))

/-- The n evenly spaced points of an edge subdivided into n sub-edges,
including the start point and excluding the end point (the end point is
supplied by the next edge of the ring). -/
def subEdge (p q : Coord) (n : ℕ) : List Coord :=
  (List.range n).map (fun k : ℕ => lerpC p q ((k : ℚ) / (n : ℚ)))

/-- The cyclically consecutive edges of a ring stored without a repeated
closing point. -/
def ringEdges (r : List Coord) : List (Coord × Coord) :=
  r.zip (r.rotate 1)

/-- Modelled from the spec: the Boundary Tessellator (spec 4.3) replaces
each edge of a ring by nSub sub-edges, producing a denser ring whose
vertices follow the original boundary. -/
def tessellateRing (r : List Coord) (res : ℚ) : List Coord :=
  (ringEdges r).flatMap (fun e => subEdge e.1 e.2 (nSub res e.1 e.2))

theorem length_subEdge (p q : Coord) (n : ℕ) : (subEdge p q n).length = n := by
  unfold subEdge
  rw [List.length_map, List.length_range]

theorem nSub_mono (p q : Coord) {r1 r2 : ℚ} (h : r1 ≤ r2) :
    nSub r1 p q ≤ nSub r2 p q := by
  unfold nSub
  have hmul : r1 * angLen p q ≤ r2 * angLen p q :=
    mul_le_mul_of_nonneg_right h (angLen_nonneg p q)
  have hceil : ⌈r1 * angLen p q⌉ ≤ ⌈r2 * angLen p q⌉ := Int.ceil_le_ceil hmul
  exact max_le_max (le_refl 1) (Int.toNat_le_toNat hceil)

theorem length_tessellateRing (r : List Coord) (res : ℚ) :
    (tessellateRing r res).length =
      ((ringEdges r).map (fun e => nSub res e.1 e.2)).sum := by
  unfold tessellateRing
  rw [List.length_flatMap]
  congr 1
  apply List.map_congr_left
  intro e _
  exact length_subEdge e.1 e.2 _

theorem nSub_of_nonpos (p q : Coord) {res : ℚ} (h : res ≤ 0) :
    nSub res p q = 1 := by
  unfold nSub
  have hmul : res * angLen p q ≤ 0 :=
    mul_nonpos_of_nonpos_of_nonneg h (angLen_nonneg p q)
  have hceil : ⌈res * angLen p q⌉ ≤ 0 := by
    have : ⌈res * angLen p q⌉ ≤ ⌈(0:ℚ)⌉ := Int.ceil_le_ceil hmul
    simpa using this
  have : (⌈res * angLen p q⌉).toNat = 0 := Int.toNat_of_nonpos hceil
  simp [this]

theorem subEdge_one (p q : Coord) : subEdge p q 1 = [p] := by
  simp [subEdge, lerpC, List.range_succ]

theorem flatMap_heads {α β : Type} (l : List (α × β)) :
    l.flatMap (fun e => [e.1]) = l.map Prod.fst := by
  induction l with
  | nil => rfl
  | cons a t ih => simp [ih]

/-- C6: for every ring, the number of boundary points produced by the
Boundary Tessellator is monotonically non-decreasing in the resolution
parameter — a higher resolution never yields fewer points (spec 4.3 and
spec 8, "Resolution monotonicity"). -/
theorem spec_tessellation_monotone (r : List Coord) {r1 r2 : ℚ} (h : r1 ≤ r2) :
    (tessellateRing r r1).length ≤ (tessellateRing r r2).length := by
  rw [length_tessellateRing, length_tessellateRing]
  apply List.sum_le_sum
  intro e _
  exact nSub_mono e.1 e.2 h

/-- Concrete instantiation of the tessellation monotonicity theorem on a
square ring at resolutions 1 and 2. -/
theorem spec_tessellation_monotone_witness :
    (1 : ℚ) ≤ 2 ∧
      (tessellateRing [((0:ℚ),(0:ℚ)), (4,0), (4,4), (0,4)] 1).length ≤
        (tessellateRing [((0:ℚ),(0:ℚ)), (4,0), (4,4), (0,4)] 2).length :=
  ⟨by norm_num, spec_tessellation_monotone [((0:ℚ),(0:ℚ)), (4,0), (4,4), (0,4)] (by norm_num)⟩

/-- C7: at or below the minimum resolution threshold (zero in this model)
the Boundary Tessellator returns the original ring unchanged — no
subdivision points are inserted (spec 4.3, "Resolution ≤ some minimum
collapses to the original ring"). -/
theorem spec_tessellation_identity_low_res (r : List Coord) {res : ℚ} (h : res ≤ 0) :
    tessellateRing r res = r := by
  unfold tessellateRing
  have hfun : (fun e : Coord × Coord => subEdge e.1 e.2 (nSub res e.1 e.2)) =
      fun e : Coord × Coord => [e.1] := by
    funext e
    rw [nSub_of_nonpos e.1 e.2 h, subEdge_one]
  rw [hfun, flatMap_heads]
  unfold ringEdges
  exact List.map_fst_zip r (r.rotate 1) (by rw [List.length_rotate])

/-- Concrete instantiation of the low-resolution identity theorem on a
square ring at resolution 0. -/
theorem spec_tessellation_identity_low_res_witness :
    (0 : ℚ) ≤ 0 ∧
      tessellateRing [((0:ℚ),(0:ℚ)), (4,0), (4,4), (0,4)] 0 =
        [((0:ℚ),(0:ℚ)), (4,0), (4,4), (0,4)] :=
  ⟨le_refl 0, spec_tessellation_identity_low_res [((0:ℚ),(0:ℚ)), (4,0), (4,4), (0,4)] (le_refl 0)⟩

/-- Whether point p lies inside or on the boundary of the counter-clockwise
triangle (a, b, c): all three edge cross products are non-negative. -/
def insideB (a b c p : Coord) : Bool :=
  decide (0 ≤ cross2 a b p) && decide (0 ≤ cross2 b c p) && decide (0 ≤ cross2 c a p)

/-- Modelled from the spec: the ear test of the Planar Triangulator
(spec 4.2, an ear-clipping triangulation).  The corner at position m of
the working ring l is an ear when it turns counter-clockwise and no other
vertex of the ring lies inside (or on) its triangle.  pt projects a
working-ring entry to its 2D parameter-space point. -/
def isEarAt {α : Type} (pt : α → Coord) (l : List α) (m : ℕ) : Bool :=
  match l with
  | [] => false
  | x :: _ =>
    let pa := pt (l.getD (m - 1) x)
    let pb := pt (l.getD m x)
    let pc := pt (l.getD (m + 1) x)
    decide (0 < cross2 pa pb pc) &&
      (List.range l.length).all (fun j =>
        decide (j = m - 1) || decide (j = m) || decide (j = m + 1) ||
          !(insideB pa pb pc (pt (l.getD j x))))

/-- The first ear of the working ring, scanning the interior corner
positions 1 .. length - 2. -/
def findEar {α : Type} (pt : α → Coord) (l : List α) : Option ℕ :=
  (List.range' 1 (l.length - 2)).find? (fun m => isEarAt pt l m)

/-- Modelled from the spec: the recursive pass of the Planar Triangulator
(spec 4.2), fuelled to keep the recursion structural.  A ring with exactly
3 points short-circuits to a single triangle, dropped when it is
degenerate (zero area); otherwise the first ear found is clipped and the
pass recurses on the remaining ring; when no valid ear exists (degenerate
or self-intersecting input) the pass degrades gracefully by dropping a
vertex without emitting a zero-area triangle. -/
def earClipF {α : Type} (pt : α → Coord) : ℕ → List α → List (α × α × α)
  | 0, _ => []
  | _, [] => []
  | _, [_] => []
  | _, [_, _] => []
  | _, [a, b, c] => if cross2 (pt a) (pt b) (pt c) ≠ 0 then [(a, b, c)] else []
  | fuel + 1, a :: b :: c :: d :: rest =>
    match findEar pt (a :: b :: c :: d :: rest) with
    | some m =>
      ((a :: b :: c :: d :: rest).getD (m - 1) a, (a :: b :: c :: d :: rest).getD m a,
        (a :: b :: c :: d :: rest).getD (m + 1) a) ::
          earClipF pt fuel ((a :: b :: c :: d :: rest).eraseIdx m)
    | none => earClipF pt fuel ((a :: b :: c :: d :: rest).eraseIdx 1)

/-- Modelled from the spec: the Planar Triangulator (spec 4.2) over a
working ring of entries carrying 2D parameter-space points.  One unit of
fuel per vertex suffices because every step of the pass removes exactly
one vertex. -/
def earClip {α : Type} (pt : α → Coord) (l : List α) : List (α × α × α) :=
  earClipF pt l.length l

/-- The ring r is in strictly convex position in its listed
counter-clockwise order (the orientation required of an exterior ring by
spec 3): every index-ordered triple of its points is a strict left turn.
This formalizes "simple convex ring with distinct points". -/
def chordConvex (r : List Coord) : Prop :=
  ∀ k, k < r.length → ∀ j, j < k → ∀ i, i < j →
    0 < cross2 (r.getD i ((0:ℚ), (0:ℚ))) (r.getD j ((0:ℚ), (0:ℚ))) (r.getD k ((0:ℚ), (0:ℚ)))

theorem getD_map_of_lt {α β : Type} (f : α → β) (l : List α) {i : ℕ} (hi : i < l.length)
    (d : β) (d' : α) : (l.map f).getD i d = f (l.getD i d') := by
  rw [List.getD_eq_getElem (l.map f) d (by simpa using hi), List.getD_eq_getElem l d' hi]
  simp

theorem chordConvex_clip {a b c : Coord} {rest : List Coord}
    (h : chordConvex (a :: b :: c :: rest)) : chordConvex (a :: c :: rest) := by
  intro k hk j hj i hi
  have hget : ∀ t : ℕ, (a :: c :: rest).getD t ((0:ℚ), (0:ℚ)) =
      (a :: b :: c :: rest).getD (if t = 0 then 0 else t + 1) ((0:ℚ), (0:ℚ)) := by
    intro t
    cases t with
    | zero => rfl
    | succ t' => simp
  rw [hget i, hget j, hget k]
  refine h _ ?_ _ ?_ _ ?_ <;>
    (simp only [List.length_cons] at hk ⊢; split_ifs <;> omega)

theorem chordConvex_fst3 {α : Type} (pt : α → Coord) (a b c : α) (rest : List α)
    (h : chordConvex ((a :: b :: c :: rest).map pt)) : 0 < cross2 (pt a) (pt b) (pt c) := by
  have h3 := h 2 (by simp) 1 (by norm_num) 0 (by norm_num)
  rwa [getD_map_of_lt pt _ (by simp) _ a, getD_map_of_lt pt _ (by simp) _ a,
    getD_map_of_lt pt _ (by simp) _ a] at h3

theorem isEarAt_one {α : Type} (pt : α → Coord) (a b c d : α) (rest : List α)
    (h : chordConvex ((a :: b :: c :: d :: rest).map pt)) :
    isEarAt pt (a :: b :: c :: d :: rest) 1 = true := by
  have hmap : ∀ t : ℕ, t < (a :: b :: c :: d :: rest).length →
      ((a :: b :: c :: d :: rest).map pt).getD t ((0:ℚ), (0:ℚ)) =
        pt ((a :: b :: c :: d :: rest).getD t a) :=
    fun t ht => getD_map_of_lt pt _ ht _ a
  have h012 : 0 < cross2 (pt a) (pt b) (pt c) := chordConvex_fst3 pt a b c (d :: rest) h
  unfold isEarAt
  rw [Bool.and_eq_true]
  constructor
  · exact decide_eq_true h012
  · rw [List.all_eq_true]
    intro j hj
    rw [List.mem_range] at hj
    by_cases hj0 : j = 0
    · simp [hj0]
    by_cases hj1 : j = 1
    · simp [hj1]
    by_cases hj2 : j = 2
    · simp [hj2]
    have hj3 : 3 ≤ j := by omega
    have hchord : 0 < cross2 (pt a) (pt c)
        (pt ((a :: b :: c :: d :: rest).getD j a)) := by
      have hh := h j (by simpa using hj) 2 (by omega) 0 (by omega)
      rwa [hmap 0 (by simp), hmap 2 (by simp), hmap j (by simpa using hj)] at hh
    have hneg : cross2 (pt c) (pt a) (pt ((a :: b :: c :: d :: rest).getD j a)) < 0 := by
      rw [cross2_swap]
      linarith
    have hins : insideB (pt a) (pt b) (pt c)
        (pt ((a :: b :: c :: d :: rest).getD j a)) = false := by
      unfold insideB
      have hn : ¬ (0 ≤ cross2 (pt c) (pt a) (pt ((a :: b :: c :: d :: rest).getD j a))) :=
        not_le.mpr hneg
      have hz : decide (0 ≤ cross2 (pt c) (pt a)
          (pt ((a :: b :: c :: d :: rest).getD j a))) = false := decide_eq_false hn
      rw [hz, Bool.and_false]
    simp
    rw [← List.getD_eq_getElem?_getD]
    exact Or.inr hins

theorem findEar_convex {α : Type} (pt : α → Coord) (a b c d : α) (rest : List α)
    (h : chordConvex ((a :: b :: c :: d :: rest).map pt)) :
    findEar pt (a :: b :: c :: d :: rest) = some 1 := by
  unfold findEar
  have hlen : (a :: b :: c :: d :: rest).length - 2 = rest.length + 2 := by
    simp
  rw [hlen]
  have hrange : List.range' 1 (rest.length + 2) = 1 :: List.range' 2 (rest.length + 1) := rfl
  rw [hrange]
  exact List.find?_cons_of_pos _ (isEarAt_one pt a b c d rest h)

theorem earClip_convex_step {α : Type} (pt : α → Coord) (a b c : α) (rest : List α)
    (h : chordConvex ((a :: b :: c :: rest).map pt)) :
    earClip pt (a :: b :: c :: rest) = (a, b, c) :: earClip pt (a :: c :: rest) := by
  cases rest with
  | nil =>
    have h012 : 0 < cross2 (pt a) (pt b) (pt c) := chordConvex_fst3 pt a b c [] h
    simp [earClip, earClipF, ne_of_gt h012]
  | cons d rest' =>
    show earClipF pt (rest'.length + 4) (a :: b :: c :: d :: rest') = _
    rw [earClipF, findEar_convex pt a b c d rest' h]
    rfl

/-- The running shoelace sum: first is the ring's first point (closing the
cycle), cur is the point the scan has reached. -/
def shlAux (first cur : Coord) : List Coord → ℚ
  | [] => cur.1 * first.2 - first.1 * cur.2
  | x :: xs => (cur.1 * x.2 - x.1 * cur.2) + shlAux first x xs

/-- Twice the signed (shoelace) area of a ring given without a repeated
closing point; positive for counter-clockwise winding. -/
def shoelace : List Coord → ℚ
  | [] => 0
  | p :: xs => shlAux p p xs

/-- Twice the signed area of an output triangle of the triangulator. -/
def triCross (t : Coord × Coord × Coord) : ℚ := cross2 t.1 t.2.1 t.2.2

theorem shoelace_clip (a b c : Coord) (rest : List Coord) :
    shoelace (a :: b :: c :: rest) = cross2 a b c + shoelace (a :: c :: rest) := by
  simp only [shoelace, shlAux, cross2]
  ring

theorem earClip_convex_main : ∀ (n : ℕ) (r : List Coord), r.length = n →
    chordConvex r → 3 ≤ r.length →
    ((earClip id r).length = r.length - 2 ∧
      ((earClip id r).map triCross).sum = shoelace r ∧
      ∀ t ∈ earClip id r, 0 < triCross t) := by
  intro n
  induction n using Nat.strong_induction_on with
  | _ n ih =>
    intro r hlen hcv h3
    rcases r with _ | ⟨a, _ | ⟨b, _ | ⟨c, rest⟩⟩⟩
    · simp at h3
    · simp at h3
    · simp at h3
    have hmap : chordConvex ((a :: b :: c :: rest).map id) := by
      rwa [List.map_id]
    rw [earClip_convex_step id a b c rest hmap]
    cases rest with
    | nil =>
      refine ⟨rfl, ?_, ?_⟩
      · have hnil : earClip id [a, c] = [] := rfl
        rw [hnil]
        simp only [List.map_cons, List.map_nil, List.sum_cons, List.sum_nil,
          shoelace, shlAux, triCross, cross2]
        ring
      · intro t ht
        have hnil : earClip id [a, c] = [] := rfl
        rw [hnil, List.mem_singleton] at ht
        subst ht
        exact chordConvex_fst3 id a b c [] hmap
    | cons d rest' =>
      simp only [List.length_cons] at hlen
      have hcv' : chordConvex (a :: c :: d :: rest') := chordConvex_clip hcv
      have ih' := ih (n - 1) (by omega) (a :: c :: d :: rest')
        (by simp only [List.length_cons]; omega) hcv' (by simp)
      obtain ⟨ihl, ihs, ihp⟩ := ih'
      refine ⟨?_, ?_, ?_⟩
      · rw [List.length_cons, ihl]
        simp only [List.length_cons]
        omega
      · rw [List.map_cons, List.sum_cons, ihs, shoelace_clip a b c (d :: rest')]
        rfl
      · intro t ht
        rcases List.mem_cons.mp ht with h1 | h2
        · subst h1
          exact chordConvex_fst3 id a b c (d :: rest') hmap
        · exact ihp t h2

/-- The planar area of a counter-clockwise ring (half its shoelace sum). -/
def ringArea (r : List Coord) : ℚ := shoelace r / 2

/-- The area of an output triangle of the triangulator (half its signed
cross product; positive when counter-clockwise). -/
def triArea (t : Coord × Coord × Coord) : ℚ := triCross t / 2

theorem sum_map_half (l : List (Coord × Coord × Coord)) :
    (l.map triArea).sum = (l.map triCross).sum / 2 := by
  induction l with
  | nil => simp
  | cons x xs ih =>
    simp only [List.map_cons, List.sum_cons, ih, triArea]
    ring

/-- C5: for every simple convex ring with no holes (formalized: the points
are in strictly convex position in the listed counter-clockwise order,
which forces them pairwise distinct), the Planar Triangulator produces
exactly (vertexCount - 2) triangles, each of positive area, and the sum of
the triangle areas equals the ring's planar area exactly (rational
arithmetic, hence within any floating tolerance); in particular a ring
with exactly 3 points yields a single triangle (spec 4.2 and spec 8). -/
theorem spec_convex_triangulation (r : List Coord) (hcv : chordConvex r)
    (h3 : 3 ≤ r.length) :
    (earClip id r).length = r.length - 2 ∧
      ((earClip id r).map triArea).sum = ringArea r ∧
      (∀ t ∈ earClip id r, 0 < triArea t) ∧
      (r.length = 3 → (earClip id r).length = 1) := by
  obtain ⟨hl, hs, hp⟩ := earClip_convex_main r.length r rfl hcv h3
  refine ⟨hl, ?_, ?_, ?_⟩
  · rw [sum_map_half, hs]
    rfl
  · intro t ht
    have hpos := hp t ht
    unfold triArea
    linarith
  · intro h3'
    rw [hl, h3']

theorem chordConvex_sq : chordConvex [((0:ℚ), (0:ℚ)), (4, 0), (4, 4), (0, 4)] := by
  intro k hk j hj i hi
  simp only [List.length_cons, List.length_nil] at hk
  interval_cases k <;> interval_cases j <;> interval_cases i <;>
    norm_num [cross2, List.getD_cons_zero, List.getD_cons_succ]

/-- Concrete instantiation of the convex triangulation theorem on a unit
square scaled by 4: two triangles, areas summing to 16. -/
theorem spec_convex_triangulation_witness :
    chordConvex [((0:ℚ), (0:ℚ)), (4, 0), (4, 4), (0, 4)] ∧
      3 ≤ ([((0:ℚ), (0:ℚ)), (4, 0), (4, 4), (0, 4)] : List Coord).length ∧
      ((earClip id [((0:ℚ), (0:ℚ)), (4, 0), (4, 4), (0, 4)]).length =
          ([((0:ℚ), (0:ℚ)), (4, 0), (4, 4), (0, 4)] : List Coord).length - 2 ∧
        ((earClip id [((0:ℚ), (0:ℚ)), (4, 0), (4, 4), (0, 4)]).map triArea).sum =
          ringArea [((0:ℚ), (0:ℚ)), (4, 0), (4, 4), (0, 4)] ∧
        (∀ t ∈ earClip id [((0:ℚ), (0:ℚ)), (4, 0), (4, 4), (0, 4)], 0 < triArea t) ∧
        (([((0:ℚ), (0:ℚ)), (4, 0), (4, 4), (0, 4)] : List Coord).length = 3 →
          (earClip id [((0:ℚ), (0:ℚ)), (4, 0), (4, 4), (0, 4)]).length = 1)) :=
  ⟨chordConvex_sq, by simp,
    spec_convex_triangulation [((0:ℚ), (0:ℚ)), (4, 0), (4, 4), (0, 4)] chordConvex_sq (by simp)⟩

/-- Modelled from the spec: a coordinate-array entry of the structured
GeoJSON document (spec 6, "Input format").  Only numeric entries can
contribute to a geodetic coordinate; anything else is captured by other. -/
inductive JVal : Type
  | num (q : ℚ)
  | other

/-- A position of the document: one coordinate array. -/
abbrev PositionJ : Type := List JVal

/-- A ring of the document: a list of coordinate arrays. -/
abbrev RingJ : Type := List PositionJ

/-- Modelled from the spec: the geometry of a document feature; the parser
must accept both Polygon and MultiPolygon geometry types, and anything
else is a wrong geometry type (spec 4.1, spec 7). -/
inductive GeometryJ : Type
  | polygon (rings : List RingJ)
  | multiPolygon (polys : List (List RingJ))
  | otherGeom

/-- A feature of the structured document: an optional attribute mapping
and a geometry. -/
structure FeatureJ : Type where
  properties : Option (List (String × String))
  geometry : GeometryJ

/-- Modelled from the spec: the top-level document, either a
FeatureCollection or something that is not valid GeoJSON at the top
level — the latter case is fatal (spec 7). -/
inductive DocumentJ : Type
  | featureCollection (feats : List FeatureJ)
  | notGeoJSON

/-- Modelled from the spec: the parser error taxonomy (spec 7):
malformedInput for a structurally invalid feature geometry, and
invalidDocument for a top-level document that is not GeoJSON at all. -/
inductive ParseErr : Type
  | malformedInput
  | invalidDocument

/-- Modelled from the spec: the Polygon (Ring Model) entity: an exterior
ring plus hole rings in geodetic coordinates, owned by the feature with
index fid; read-only once constructed (spec 3, "Polygon"). -/
structure Polygon : Type where
  fid : ℕ
  outer : List Coord
  holes : List (List Coord)

/-- Modelled from the spec: a Feature: an attribute mapping (absent when
the document had none) plus the ordered polygons it owns; fid is the
feature's identity, its index in the document (spec 3, "Feature"). -/
structure Feature : Type where
  fid : ℕ
  properties : Option (List (String × String))
  polygons : List Polygon

/-- Modelled from the spec: the parse result, exposing the ordered
features and the flattened ordered polygons across all features
(spec 4.1, spec 6). -/
structure ParseResult : Type where
  features : List Feature
  polygons : List Polygon

/-- Except-valued traversal of a list, stopping at the first error. -/
def mapE {α β : Type} (f : α → Except ParseErr β) : List α → Except ParseErr (List β)
  | [] => .ok []
  | x :: xs =>
    match f x, mapE f xs with
    | .error e, _ => .error e
    | .ok _, .error e => .error e
    | .ok y, .ok ys => .ok (y :: ys)

/-- Modelled from the spec: a coordinate array parses to a geodetic
coordinate exactly when it starts with two numeric entries (longitude and
latitude; a trailing altitude entry is ignored); otherwise it is not a
numeric pair and the geometry is malformed (spec 4.1). -/
def parsePosition : PositionJ → Except ParseErr Coord
  | .num x :: .num y :: _ => .ok (x, y)
  | _ => .error .malformedInput

/-- Drop the repeated closing point of a ring when present (spec 3: a
ring is closed with the first coordinate equal to the last, or implicitly
closed). -/
def stripClosing (l : List Coord) : List Coord :=
  if 2 ≤ l.length ∧ l.head? = l.getLast? then l.dropLast else l

/-- Modelled from the spec: parse one ring: every position must be a
numeric pair, the repeated closing point is dropped, and a ring left with
fewer than 3 points cannot be auto-closed and is malformed (spec 4.1). -/
def parseRing (r : RingJ) : Except ParseErr (List Coord) :=
  match mapE parsePosition r with
  | .error e => .error e
  | .ok cs =>
    if 3 ≤ (stripClosing cs).length then .ok (stripClosing cs) else .error .malformedInput

/-- Modelled from the spec: parse the ring list of one polygon geometry:
the first ring is the exterior, the rest are holes; a polygon with no
rings at all has a missing coordinate array and is malformed (spec 4.1,
spec 7). -/
def parseRingList (rs : List RingJ) : Except ParseErr (List Coord × List (List Coord)) :=
  match rs with
  | [] => .error .malformedInput
  | outer :: holes =>
    match parseRing outer, mapE parseRing holes with
    | .error e, _ => .error e
    | .ok _, .error e => .error e
    | .ok o, .ok hs => .ok (o, hs)

/-- Modelled from the spec: build the polygons of the feature with index
fid: a Polygon geometry yields one polygon, a MultiPolygon yields one
polygon per member — all sharing the feature identity fid — and any other
geometry type is malformed (spec 4.1). -/
def parseFeature (fid : ℕ) (f : FeatureJ) : Except ParseErr (List Polygon) :=
  match f.geometry with
  | .polygon rs =>
    match parseRingList rs with
    | .error e => .error e
    | .ok oh => .ok [⟨fid, oh.1, oh.2⟩]
  | .multiPolygon ps =>
    match mapE parseRingList ps with
    | .error e => .error e
    | .ok ohs => .ok (ohs.map (fun oh => ⟨fid, oh.1, oh.2⟩))
  | .otherGeom => .error .malformedInput

/-- Modelled from the spec: the GeoJSON Parser entry point (spec 4.1,
spec 6): a non-GeoJSON top-level document is fatal; otherwise the parser
is resilient per feature, keeping every feature whose geometry parses and
skipping the ones that fail, and flattening all polygons in feature
order.  Mesh construction is deferred: parsing builds no mesh. -/
def parse : DocumentJ → Except ParseErr ParseResult
  | .notGeoJSON => .error .invalidDocument
  | .featureCollection feats =>
    let fs := (feats.enum).filterMap (fun p =>
      ((parseFeature p.1 p.2).toOption).map (fun ps => Feature.mk p.1 p.2.properties ps))
    .ok ⟨fs, fs.flatMap (fun f => f.polygons)⟩

/-- The parse result of a document, with an empty result standing in for
the fatal case. -/
def parseOr (d : DocumentJ) : ParseResult :=
  match parse d with
  | .ok r => r
  | .error _ => ⟨[], []⟩

/-- Structural validity of a coordinate array: it starts with two numeric
entries — the "numeric pair" condition of spec 4.1. -/
def positionOKb : PositionJ → Bool
  | .num _ :: .num _ :: _ => true
  | _ => false

/-- The geodetic coordinate denoted by a structurally valid coordinate
array (a junk value for invalid ones). -/
def coordOf : PositionJ → Coord
  | .num x :: .num y :: _ => (x, y)
  | _ => ((0:ℚ), (0:ℚ))

/-- Structural validity of a ring: numeric pairs throughout, and at least
3 points once the repeated closing point is dropped. -/
def ringOKb (r : RingJ) : Bool :=
  r.all positionOKb && decide (3 ≤ (stripClosing (r.map coordOf)).length)

/-- The parsed points of a structurally valid ring. -/
def ringOf (r : RingJ) : List Coord :=
  stripClosing (r.map coordOf)

/-- Structural validity of the ring list of a polygon geometry: nonempty
with every ring valid. -/
def ringListOKb (rs : List RingJ) : Bool :=
  !rs.isEmpty && rs.all ringOKb

/-- The exterior/holes pair denoted by a structurally valid ring list. -/
def ringsOf (rs : List RingJ) : List Coord × List (List Coord) :=
  ((rs.headD []).map coordOf |> stripClosing, rs.tail.map ringOf)

/-- Structural validity of a geometry, as spec 7 describes MalformedInput:
a Polygon or MultiPolygon whose coordinate arrays are numeric pairs and
whose rings can all be auto-closed; any other geometry type is invalid. -/
def geomOKb : GeometryJ → Bool
  | .polygon rs => ringListOKb rs
  | .multiPolygon ps => ps.all ringListOKb
  | .otherGeom => false

/-- The polygons denoted by a structurally valid geometry for feature
identity fid. -/
def polysOf (fid : ℕ) : GeometryJ → List Polygon
  | .polygon rs => [⟨fid, (ringsOf rs).1, (ringsOf rs).2⟩]
  | .multiPolygon ps => ps.map (fun rs => ⟨fid, (ringsOf rs).1, (ringsOf rs).2⟩)
  | .otherGeom => []

theorem parsePosition_eq (p : PositionJ) :
    parsePosition p =
      if positionOKb p then .ok (coordOf p) else .error .malformedInput := by
  match p with
  | [] => rfl
  | [.num _] => rfl
  | .num _ :: .num _ :: _ => rfl
  | .num _ :: .other :: _ => rfl
  | .other :: _ => rfl

theorem mapE_eq_of_pointwise {α β : Type} (f : α → Except ParseErr β) (okb : α → Bool)
    (g : α → β) (hf : ∀ a, f a = if okb a then .ok (g a) else .error .malformedInput)
    (l : List α) :
    mapE f l = if l.all okb then .ok (l.map g) else .error .malformedInput := by
  induction l with
  | nil => rfl
  | cons x xs ih =>
    simp only [mapE, hf x, ih, List.all_cons, List.map_cons]
    by_cases h1 : okb x = true
    · by_cases h2 : xs.all okb = true
      · simp [h1, h2]
      · simp [h1, h2]
    · simp [h1]

theorem parseRing_eq (r : RingJ) :
    parseRing r = if ringOKb r then .ok (ringOf r) else .error .malformedInput := by
  unfold parseRing ringOKb ringOf
  rw [mapE_eq_of_pointwise parsePosition positionOKb coordOf parsePosition_eq r]
  by_cases h1 : r.all positionOKb = true
  · by_cases h2 : 3 ≤ (stripClosing (r.map coordOf)).length
    · simp [h1, h2]
    · simp [h1, h2]
  · simp [h1]

theorem parseRingList_eq (rs : List RingJ) :
    parseRingList rs =
      if ringListOKb rs then .ok (ringsOf rs) else .error .malformedInput := by
  match rs with
  | [] => rfl
  | outer :: holes =>
    unfold parseRingList ringListOKb ringsOf
    simp only []
    rw [parseRing_eq, mapE_eq_of_pointwise parseRing ringOKb ringOf parseRing_eq holes]
    by_cases h1 : ringOKb outer = true
    · by_cases h2 : holes.all ringOKb = true
      · simp [h1, h2, ringOf]
      · simp [h1, h2]
    · simp [h1]

theorem parseFeature_eq (fid : ℕ) (f : FeatureJ) :
    parseFeature fid f =
      if geomOKb f.geometry then .ok (polysOf fid f.geometry)
      else .error .malformedInput := by
  match hg : f.geometry with
  | .polygon rs =>
    simp only [parseFeature, hg]
    rw [parseRingList_eq]
    by_cases h1 : ringListOKb rs = true
    · simp [h1, geomOKb, polysOf]
    · simp [h1, geomOKb]
  | .multiPolygon ps =>
    simp only [parseFeature, hg]
    rw [mapE_eq_of_pointwise parseRingList ringListOKb ringsOf parseRingList_eq ps]
    by_cases h1 : ps.all ringListOKb = true
    · simp [h1, geomOKb, polysOf]
    · simp [h1, geomOKb]
  | .otherGeom => simp [parseFeature, hg, geomOKb]

theorem parse_count_aux (n : ℕ) (feats : List FeatureJ) :
    ((List.enumFrom n feats).filterMap (fun p =>
        ((parseFeature p.1 p.2).toOption).map (fun ps => Feature.mk p.1 p.2.properties ps))).length
      = (feats.filter (fun f => geomOKb f.geometry)).length := by
  induction feats generalizing n with
  | nil => rfl
  | cons f fs ih =>
    rw [show List.enumFrom n (f :: fs) = (n, f) :: List.enumFrom (n + 1) fs from rfl]
    rw [List.filterMap_cons, List.filter_cons]
    simp only []
    rw [parseFeature_eq n f]
    have hok : (Except.ok (polysOf n f.geometry) : Except ParseErr (List Polygon)).toOption
        = some (polysOf n f.geometry) := rfl
    have herr : (Except.error ParseErr.malformedInput
        : Except ParseErr (List Polygon)).toOption = none := rfl
    by_cases h : geomOKb f.geometry = true
    · simp [h, hok, ih]
    · simp [h, herr, ih]

/-- C8: the GeoJSON Parser fails with MalformedInput exactly when a
geometry's coordinate arrays are not numeric pairs, a ring cannot be
auto-closed (fewer than 3 points), the geometry has a missing coordinate
array, or a wrong geometry type — the conditions collected by geomOKb;
MalformedInput is the only per-feature failure; such a failure aborts
only that feature's construction while the rest of the document still
parses (parse always succeeds on a FeatureCollection and keeps exactly
the structurally valid features); only a top-level document that is not
GeoJSON is fatal (spec 4.1, spec 7). -/
theorem spec_parse_error_conditions :
    (parse .notGeoJSON = .error .invalidDocument) ∧
      (∀ fid f, parseFeature fid f = .error .malformedInput ↔ geomOKb f.geometry = false) ∧
      (∀ fid f e, parseFeature fid f = .error e → e = .malformedInput) ∧
      (∀ feats, (parse (.featureCollection feats)).isOk = true) ∧
      (∀ feats, (parseOr (.featureCollection feats)).features.length =
        (feats.filter (fun f => geomOKb f.geometry)).length) := by
  refine ⟨rfl, ?_, ?_, ?_, ?_⟩
  · intro fid f
    rw [parseFeature_eq]
    by_cases h : geomOKb f.geometry = true
    · simp [h]
    · simp [h]
  · intro fid f e he
    rw [parseFeature_eq] at he
    by_cases h : geomOKb f.geometry = true
    · rw [h] at he
      simp at he
    · rw [Bool.not_eq_true] at h
      rw [h] at he
      simp at he
      exact he.symm
  · intro feats
    rfl
  · intro feats
    show ((List.enumFrom 0 feats).filterMap _).length = _
    exact parse_count_aux 0 feats

/-- The coordinate array of a 2D point. -/
def posJ (x y : ℚ) : PositionJ := [.num x, .num y]

/-- A closed unit-square ring with lower-left corner (x, y), written the
way a GeoJSON document writes it: the first point repeated last. -/
def sqRingJ (x y : ℚ) : RingJ :=
  [posJ x y, posJ (x+1) y, posJ (x+1) (y+1), posJ x (y+1), posJ x y]

/-- A FeatureCollection with a single feature whose geometry is a
MultiPolygon of 2 disjoint unit squares. -/
def twoSquaresDoc : DocumentJ :=
  .featureCollection [⟨some [("name", "boxes")],
    .multiPolygon [[sqRingJ 0 0], [sqRingJ 10 0]]⟩]

/-- C3: parsing a FeatureCollection that contains a single Feature whose
geometry is a MultiPolygon of 2 disjoint squares returns exactly 1
Feature owning 2 Polygons that share that Feature's identity, and the
flattened polygon list of the result has length 2 (spec 4.1 and spec 8,
concrete scenario 2). -/
theorem stripClosing_five (a b c d : Coord) :
    stripClosing [a, b, c, d, a] = [a, b, c, d] := by
  unfold stripClosing
  rw [if_pos]
  · rfl
  · exact ⟨by simp, rfl⟩

theorem parseRing_sq (x y : ℚ) :
    parseRing (sqRingJ x y) = .ok [(x, y), (x+1, y), (x+1, y+1), (x, y+1)] := by
  unfold parseRing sqRingJ posJ
  rw [show mapE parsePosition
      [[JVal.num x, JVal.num y], [JVal.num (x+1), JVal.num y],
        [JVal.num (x+1), JVal.num (y+1)], [JVal.num x, JVal.num (y+1)],
        [JVal.num x, JVal.num y]] =
      Except.ok [(x, y), (x+1, y), (x+1, y+1), (x, y+1), (x, y)] from rfl]
  simp only []
  rw [stripClosing_five]
  simp

theorem parse_twoSquares_eval :
    parse twoSquaresDoc = .ok
      ⟨[⟨0, some [("name", "boxes")],
          [⟨0, [(0, 0), (1, 0), (1, 1), (0, 1)], []⟩,
            ⟨0, [(10, 0), (11, 0), (11, 1), (10, 1)], []⟩]⟩],
        [⟨0, [(0, 0), (1, 0), (1, 1), (0, 1)], []⟩,
          ⟨0, [(10, 0), (11, 0), (11, 1), (10, 1)], []⟩]⟩ := by
  have h1 := parseRing_sq 0 0
  have h2 := parseRing_sq 10 0
  norm_num at h1 h2
  unfold twoSquaresDoc parse
  simp only [List.enum, List.enumFrom, List.filterMap_cons, List.filterMap_nil]
  rw [show parseFeature 0 ⟨some [("name", "boxes")],
      GeometryJ.multiPolygon [[sqRingJ 0 0], [sqRingJ 10 0]]⟩ =
      (match mapE parseRingList [[sqRingJ 0 0], [sqRingJ 10 0]] with
        | .error e => .error e
        | .ok ohs => .ok (ohs.map (fun oh => ⟨0, oh.1, oh.2⟩))) from rfl]
  rw [show mapE parseRingList [[sqRingJ 0 0], [sqRingJ 10 0]] =
      (match parseRingList [sqRingJ 0 0], mapE parseRingList [[sqRingJ 10 0]] with
        | .error e, _ => .error e
        | .ok _, .error e => .error e
        | .ok y, .ok ys => .ok (y :: ys)) from rfl]
  rw [show parseRingList [sqRingJ 0 0] =
      (match parseRing (sqRingJ 0 0), mapE parseRing [] with
        | .error e, _ => .error e
        | .ok _, .error e => .error e
        | .ok o, .ok hs => .ok (o, hs)) from rfl]
  rw [show mapE parseRingList [[sqRingJ 10 0]] =
      (match parseRingList [sqRingJ 10 0], (Except.ok [] : Except ParseErr (List (List Coord × List (List Coord)))) with
        | .error e, _ => .error e
        | .ok _, .error e => .error e
        | .ok y, .ok ys => .ok (y :: ys)) from rfl]
  rw [show parseRingList [sqRingJ 10 0] =
      (match parseRing (sqRingJ 10 0), mapE parseRing [] with
        | .error e, _ => .error e
        | .ok _, .error e => .error e
        | .ok o, .ok hs => .ok (o, hs)) from rfl]
  rw [h1, h2]
  rfl

/-- C3: parsing a FeatureCollection that contains a single Feature whose
geometry is a MultiPolygon of 2 disjoint squares returns exactly 1
Feature owning 2 Polygons that share that Feature's identity, and the
flattened polygon list of the result has length 2 (spec 4.1 and spec 8,
concrete scenario 2). -/
theorem spec_parse_multipolygon_two_squares :
    (parse twoSquaresDoc).isOk = true ∧
      (parseOr twoSquaresDoc).features.length = 1 ∧
      ((parseOr twoSquaresDoc).features.getD 0 ⟨0, none, []⟩).polygons.length = 2 ∧
      (parseOr twoSquaresDoc).polygons.length = 2 ∧
      ∀ p ∈ (parseOr twoSquaresDoc).polygons,
        p.fid = ((parseOr twoSquaresDoc).features.getD 0 ⟨0, none, []⟩).fid := by
  have hev := parse_twoSquares_eval
  refine ⟨by rw [hev]; rfl, ?_, ?_, ?_, ?_⟩ <;>
    · unfold parseOr
      rw [hev]
      simp

/-- Modelled from the spec: attribute lookup on a Feature (spec 3,
"Feature": identity/attribute mapping).  Total even when the attribute
mapping is absent, mirroring the optional-chaining call sites
(result.features.filter(f => f.properties?.name === ...) in
src/stories/Extruded.stories.ts). -/
def getProp (f : Feature) (k : String) : Option String :=
  match f.properties with
  | none => none
  | some ps => ps.lookup k

/-- Filtering a feature list by name, as the Storybook caller does over a
whole parse result. -/
def byName (fs : List Feature) (v : String) : List Feature :=
  fs.filter (fun f => getProp f "name" == some v)

/-- A FeatureCollection whose single feature has no properties member. -/
def noPropsDoc : DocumentJ :=
  .featureCollection [⟨none, .polygon [sqRingJ 0 0]⟩]

theorem parse_noProps_eval :
    parse noPropsDoc = .ok
      ⟨[⟨0, none, [⟨0, [(0, 0), (1, 0), (1, 1), (0, 1)], []⟩]⟩],
        [⟨0, [(0, 0), (1, 0), (1, 1), (0, 1)], []⟩]⟩ := by
  have h1 := parseRing_sq 0 0
  norm_num at h1
  unfold noPropsDoc parse
  simp only [List.enum, List.enumFrom, List.filterMap_cons, List.filterMap_nil]
  rw [show parseFeature 0 ⟨none, GeometryJ.polygon [sqRingJ 0 0]⟩ =
      (match parseRingList [sqRingJ 0 0] with
        | .error e => .error e
        | .ok oh => .ok [⟨0, oh.1, oh.2⟩]) from rfl]
  rw [show parseRingList [sqRingJ 0 0] =
      (match parseRing (sqRingJ 0 0), mapE parseRing [] with
        | .error e, _ => .error e
        | .ok _, .error e => .error e
        | .ok o, .ok hs => .ok (o, hs)) from rfl]
  rw [h1]
  rfl

/-- C10: a parse result may contain Features whose attribute mapping is
absent; looking up an attribute such as name is a total operation that
yields no value (rather than faulting) when the mapping is absent, so
filtering features by name over a whole parse result never fails: it
keeps exactly the features whose name matches (spec 3 and the call sites
of src/stories/Extruded.stories.ts, lines 50-52). -/
theorem spec_properties_lookup_total :
    (∀ f k, f.properties = none → getProp f k = none) ∧
      (∀ fs v f, f ∈ byName fs v → getProp f "name" = some v) ∧
      (∃ f, f ∈ (parseOr noPropsDoc).features ∧ f.properties = none) ∧
      (∀ v, byName (parseOr noPropsDoc).features v = []) := by
  refine ⟨?_, ?_, ?_, ?_⟩
  · intro f k h
    unfold getProp
    rw [h]
  · intro fs v f hf
    unfold byName at hf
    have hp := List.of_mem_filter hf
    simpa using hp
  · refine ⟨⟨0, none, [⟨0, [(0, 0), (1, 0), (1, 1), (0, 1)], []⟩]⟩, ?_, rfl⟩
    unfold parseOr
    rw [parse_noProps_eval]
    simp
  · intro v
    unfold parseOr
    rw [parse_noProps_eval]
    rfl

/-- Concrete instantiation of the properties-lookup theorem: a feature
with an absent mapping looks up to nothing, and a feature kept by the
name filter has the looked-up name. -/
theorem spec_properties_lookup_total_witness :
    getProp ⟨0, none, []⟩ "name" = none ∧
      getProp ⟨1, some [("name", "x")], []⟩ "name" = some "x" :=
  ⟨spec_properties_lookup_total.1 ⟨0, none, []⟩ "name" rfl,
    spec_properties_lookup_total.2.1 [⟨1, some [("name", "x")], []⟩] "x"
      ⟨1, some [("name", "x")], []⟩ (by simp [byName, getProp])⟩

/-- 3D vector subtraction. -/
def sub3 (u v : Pt3) : Pt3 := (u.1 - v.1, u.2.1 - v.2.1, u.2.2 - v.2.2)

/-- 3D cross product. -/
def cross3 (u v : Pt3) : Pt3 :=
  (u.2.1 * v.2.2 - u.2.2 * v.2.1, u.2.2 * v.1 - u.1 * v.2.2, u.1 * v.2.1 - u.2.1 * v.1)

/-- 3D negation. -/
def neg3 (u : Pt3) : Pt3 := (-u.1, -u.2.1, -u.2.2)

/-- Modelled from the spec: an Ellipsoid together with its associated
Ellipsoid Projector (spec 3 "Ellipsoid", spec 4.4): position maps a
geodetic coordinate and a height above the surface to a 3D Cartesian
point, and normal gives the outward surface normal at a coordinate.  The
geodetic-to-ECEF transform of spec 4.4 is built from transcendental
trigonometric functions of the radii, so the model carries the two
projection maps themselves as the ellipsoid datum; a theorem quantifying
over an Ellipsoid therefore covers every such transform. -/
structure Ellipsoid : Type where
  position : Coord → ℚ → Pt3
  normal : Coord → Pt3

/-- Modelled from the spec: the Mesh Options configuration (spec 3):
thickness is the extrusion distance, the presence of ellipsoid switches
the projection mode, and resolution is the subdivision density for
boundary tessellation in ellipsoid mode. -/
structure MeshOptions : Type where
  thickness : ℚ
  ellipsoid : Option Ellipsoid
  resolution : ℚ

/-- Modelled from the spec: the Mesh Output: a position buffer, a normal
buffer (one normal per position), and a triangle index buffer.  These
three buffers are the entire contract with the presentation layer; no
rendering-engine type occurs in them (spec 3 "Mesh Output", spec 6
"Renderer boundary"). -/
structure MeshOutput : Type where
  positions : List Pt3
  normals : List Pt3
  indices : List (ℕ × ℕ × ℕ)

/-- Modelled from the spec: the mesh-build error taxonomy (spec 7):
DegenerateGeometry, surfaced when triangulation yields no triangles. -/
inductive BuildErr : Type
  | degenerateGeometry

/-- The flat-mode position: the parameter plane extruded along a uniform
up-axis (spec 3: absence of ellipsoid = flat extrusion). -/
def flatPosition (c : Coord) (h : ℚ) : Pt3 := (c.1, c.2, h)

/-- The position map of the selected projection mode. -/
def projPos (o : MeshOptions) : Coord → ℚ → Pt3 :=
  match o.ellipsoid with
  | none => flatPosition
  | some e => e.position

/-- The up-normal map of the selected projection mode. -/
def projNorm (o : MeshOptions) : Coord → Pt3 :=
  match o.ellipsoid with
  | none => fun _ => (0, 0, 1)
  | some e => e.normal

/-- Modelled from the spec: step 1 of the Solid Mesh Builder (spec 4.5):
resolve the working rings — the original rings in flat mode (the
tessellator is bypassed), the tessellated rings in ellipsoid mode. -/
def resolveRings (p : Polygon) (o : MeshOptions) : List (List Coord) :=
  match o.ellipsoid with
  | none => p.outer :: p.holes
  | some _ => (p.outer :: p.holes).map (fun r => tessellateRing r o.resolution)

/-- Attach global cap-vertex indices to the resolved rings, ring by ring. -/
def indexRings (n : ℕ) : List (List Coord) → List (List (ℕ × Coord))
  | [] => []
  | r :: rs => List.enumFrom n r :: indexRings (n + r.length) rs

/-- Modelled from the spec: merge a hole ring into the working boundary
through a bridging edge between first vertices, traversed out and back
(spec 4.2: "a constrained approach merging holes into the outer boundary
via bridging edges"). -/
def mergeHole (cur hole : List (ℕ × Coord)) : List (ℕ × Coord) :=
  match cur, hole with
  | o₀ :: rest, h₀ :: _ => o₀ :: (hole ++ [h₀, o₀]) ++ rest
  | _, [] => cur
  | [], _ => hole

/-- The indexed working boundary of a polygon: the exterior ring with all
hole rings bridged in. -/
def mergedRing (rings : List (List Coord)) : List (ℕ × Coord) :=
  match indexRings 0 rings with
  | [] => []
  | outer :: hs => hs.foldl mergeHole outer

/-- Modelled from the spec: step 2 of the Solid Mesh Builder: the cap
triangulation of the resolved rings in 2D parameter space, produced by
ear clipping the merged working boundary (spec 4.5, spec 4.2). -/
def capTris (rings : List (List Coord)) :
    List ((ℕ × Coord) × (ℕ × Coord) × (ℕ × Coord)) :=
  earClip Prod.snd (mergedRing rings)

/-- The wall edges: every edge of every resolved ring, exterior and holes
(spec 4.5 step 5). -/
def wallEdges (rings : List (List Coord)) : List (Coord × Coord) :=
  rings.flatMap ringEdges

/-- The outward wall normal of an edge: perpendicular to the wall,
computed from the edge direction and the local up vector (spec 4.5 step
5; left unnormalized because unit scaling is transcendental). -/
def wallNormal (o : MeshOptions) (p q : Coord) : Pt3 :=
  cross3 (sub3 (projPos o q o.thickness) (projPos o p o.thickness)) (projNorm o p)

/-- Modelled from the spec: the Solid Mesh Builder, the per-polygon mesh
entry point getMesh(options) (spec 4.5, spec 6): resolve the working
rings, triangulate them, fail with DegenerateGeometry exactly when the
triangulation produces zero triangles, and otherwise assemble the top cap
(at height thickness), the bottom cap (height 0, winding reversed) and
the side walls (two triangles per ring edge, on duplicated wall vertices
carrying the wall normal) into one buffer set with indices offset
appropriately.  A pure function of the Polygon and the Mesh Options. -/
def getMesh (p : Polygon) (o : MeshOptions) : Except BuildErr MeshOutput :=
  let rings := resolveRings p o
  let tris := capTris rings
  if tris.isEmpty then .error .degenerateGeometry
  else
    let capPts := rings.flatMap (fun r => r)
    let n := capPts.length
    let topPos := capPts.map (fun c => projPos o c o.thickness)
    let botPos := capPts.map (fun c => projPos o c 0)
    let topNorm := capPts.map (fun c => projNorm o c)
    let botNorm := capPts.map (fun c => neg3 (projNorm o c))
    let es := wallEdges rings
    let wallPos := es.flatMap (fun e =>
      [projPos o e.1 o.thickness, projPos o e.2 o.thickness,
        projPos o e.1 0, projPos o e.2 0])
    let wallNorm := es.flatMap (fun e =>
      [wallNormal o e.1 e.2, wallNormal o e.1 e.2,
        wallNormal o e.1 e.2, wallNormal o e.1 e.2])
    let topIdx := tris.map (fun t => (t.1.1, t.2.1.1, t.2.2.1))
    let botIdx := tris.map (fun t => (t.1.1 + n, t.2.2.1 + n, t.2.1.1 + n))
    let wallIdx := (List.range es.length).flatMap (fun k =>
      [(2*n + 4*k + 1, 2*n + 4*k, 2*n + 4*k + 2),
        (2*n + 4*k + 2, 2*n + 4*k + 3, 2*n + 4*k + 1)])
    .ok ⟨topPos ++ botPos ++ wallPos, topNorm ++ botNorm ++ wallNorm,
      topIdx ++ botIdx ++ wallIdx⟩

/-- Mesh building over a list of sibling polygons: one independent
getMesh call per polygon (spec 5: no shared mutable state). -/
def buildAll (ps : List Polygon) (o : MeshOptions) : List (Except BuildErr MeshOutput) :=
  ps.map (fun p => getMesh p o)

/-- The number of triangles of a mesh-build result. -/
def triangleCount (r : Except BuildErr MeshOutput) : ℕ :=
  match r with
  | .ok m => m.indices.length
  | .error _ => 0

/-- The number of position entries of a mesh-build result. -/
def positionCount (r : Except BuildErr MeshOutput) : ℕ :=
  match r with
  | .ok m => m.positions.length
  | .error _ => 0

/-- C9: mesh building for a Polygon fails with a DegenerateGeometry
condition if and only if the triangulation step over its resolved rings
produces zero triangles; DegenerateGeometry is the only mesh-build
failure; and in a batch of sibling polygons each entry of the result
depends only on that polygon, so one polygon's failure leaves sibling
mesh builds unaffected (spec 4.5, spec 7, spec 5). -/
theorem spec_degenerate_iff_empty_triangulation :
    (∀ p o, getMesh p o = .error .degenerateGeometry ↔
      capTris (resolveRings p o) = []) ∧
      (∀ p o e, getMesh p o = .error e → e = .degenerateGeometry) ∧
      (∀ ps o i, i < ps.length →
        (buildAll ps o).getD i (.error .degenerateGeometry) =
          getMesh (ps.getD i ⟨0, [], []⟩) o) := by
  refine ⟨?_, ?_, ?_⟩
  · intro p o
    by_cases h : capTris (resolveRings p o) = []
    · simp [getMesh, h]
    · simp [getMesh, h]
  · intro p o e he
    cases e
    rfl
  · intro ps o i hi
    unfold buildAll
    rw [List.getD_eq_getElem _ _ (by simpa using hi), List.getElem_map,
      List.getD_eq_getElem _ _ hi]

/-- Concrete instantiation of the degeneracy theorem: a batch of two
polygons where the first collapses to a line (zero triangles, so its
build fails) while its sibling still builds. -/
theorem spec_degenerate_iff_empty_triangulation_witness :
    0 < ([⟨0, [(0, 0), (1, 1), (2, 2)], []⟩,
        ⟨1, [(0, 0), (1, 0), (0, 1)], []⟩] : List Polygon).length ∧
      (buildAll [⟨0, [(0, 0), (1, 1), (2, 2)], []⟩,
          ⟨1, [(0, 0), (1, 0), (0, 1)], []⟩] ⟨1, none, 0⟩).getD 0
          (.error .degenerateGeometry) =
        getMesh (([⟨0, [(0, 0), (1, 1), (2, 2)], []⟩,
          ⟨1, [(0, 0), (1, 0), (0, 1)], []⟩] : List Polygon).getD 0 ⟨0, [], []⟩)
          ⟨1, none, 0⟩ :=
  ⟨by norm_num,
    spec_degenerate_iff_empty_triangulation.2.2
      [⟨0, [(0, 0), (1, 1), (2, 2)], []⟩, ⟨1, [(0, 0), (1, 0), (0, 1)], []⟩]
      ⟨1, none, 0⟩ 0 (by norm_num)⟩

/-- The triangle ring of spec 8, concrete scenario 1, as a Polygon. -/
def triPoly : Polygon := ⟨0, [(0, 0), (1, 0), (0, 1)], []⟩

/-- Flat-mode Mesh Options with thickness 1. -/
def flatThickOne : MeshOptions := ⟨1, none, 0⟩

theorem capTris_triPoly :
    capTris (resolveRings triPoly flatThickOne) =
      [((0, ((0:ℚ), (0:ℚ))), (1, ((1:ℚ), (0:ℚ))), (2, ((0:ℚ), (1:ℚ))))] := by
  have hcross : cross2 ((0:ℚ), (0:ℚ)) (1, 0) (0, 1) ≠ 0 := by
    norm_num [cross2]
  show (if cross2 ((0:ℚ), (0:ℚ)) (1, 0) (0, 1) ≠ 0 then
      [((0, ((0:ℚ), (0:ℚ))), (1, ((1:ℚ), (0:ℚ))), (2, ((0:ℚ), (1:ℚ))))] else []) = _
  rw [if_pos hcross]

/-- C4: for the triangle ring [(0,0),(1,0),(0,1)] in flat mode with
thickness 1, mesh building succeeds and the produced mesh has exactly 8
triangles — 2 cap triangles plus 3 edges times 2 wall triangles — and at
least 6 position entries: 3 top cap plus 3 bottom cap, before any wall
vertex duplication (spec 8, concrete scenario 1; spec 4.5). -/
theorem spec_flat_triangle_mesh_counts :
    (getMesh triPoly flatThickOne).isOk = true ∧
      triangleCount (getMesh triPoly flatThickOne) = 8 ∧
      6 ≤ positionCount (getMesh triPoly flatThickOne) := by
  have htri := capTris_triPoly
  have hpos : positionCount (getMesh triPoly flatThickOne) = 18 := by
    simp only [getMesh, htri]
    rfl
  refine ⟨?_, ?_, ?_⟩
  · simp only [getMesh, htri]
    rfl
  · simp only [getMesh, htri]
    rfl
  · rw [hpos]
    norm_num

/-- The parse result of the two-squares document, written out. -/
def twoSquaresResult : ParseResult :=
  ⟨[⟨0, some [("name", "boxes")],
      [⟨0, [(0, 0), (1, 0), (1, 1), (0, 1)], []⟩,
        ⟨0, [(10, 0), (11, 0), (11, 1), (10, 1)], []⟩]⟩],
    [⟨0, [(0, 0), (1, 0), (1, 1), (0, 1)], []⟩,
      ⟨0, [(10, 0), (11, 0), (11, 1), (10, 1)], []⟩]⟩

/-- C2: every Polygon produced by parse exposes the mesh entry point
getMesh(options); a successful build returns a Mesh Output that consists
exactly of the three buffers positions, normals and indices — a
MeshOutput value is fully determined by those buffers, and they are the
entire contract with the presentation layer: positions and normals are
bare coordinate triples and indices bare index triples, with no
rendering-engine type in the result (spec 6, and the per-polygon mesh
calls of src/stories/Extruded.stories.ts). -/
theorem spec_getMesh_contract :
    (∀ m : MeshOutput, m = ⟨m.positions, m.normals, m.indices⟩) ∧
      (∀ d r p o, parse d = .ok r → p ∈ r.polygons →
        ∃ out : Except BuildErr MeshOutput, getMesh p o = out ∧
          ∀ m : MeshOutput, out = .ok m → m = ⟨m.positions, m.normals, m.indices⟩) := by
  constructor
  · intro m
    cases m
    rfl
  · intro d r p o _ _
    exact ⟨getMesh p o, rfl, fun m _ => by cases m; rfl⟩

/-- Concrete instantiation of the mesh-contract theorem at the first
polygon of the parsed two-squares document, in flat mode. -/
theorem spec_getMesh_contract_witness :
    parse twoSquaresDoc = .ok twoSquaresResult ∧
      (⟨0, [(0, 0), (1, 0), (1, 1), (0, 1)], []⟩ : Polygon) ∈ twoSquaresResult.polygons ∧
      ∃ out : Except BuildErr MeshOutput,
        getMesh ⟨0, [(0, 0), (1, 0), (1, 1), (0, 1)], []⟩ flatThickOne = out ∧
          ∀ m : MeshOutput, out = .ok m → m = ⟨m.positions, m.normals, m.indices⟩ :=
  ⟨parse_twoSquares_eval, List.mem_cons_self _ _,
    spec_getMesh_contract.2 twoSquaresDoc twoSquaresResult
      ⟨0, [(0, 0), (1, 0), (1, 1), (0, 1)], []⟩ flatThickOne
      parse_twoSquares_eval (List.mem_cons_self _ _)⟩

/-- Concrete instantiation of the two-squares theorem's ownership part at
the first flattened polygon. -/
theorem spec_parse_multipolygon_two_squares_witness :
    (⟨0, [(0, 0), (1, 0), (1, 1), (0, 1)], []⟩ : Polygon) ∈ (parseOr twoSquaresDoc).polygons ∧
      (⟨0, [(0, 0), (1, 0), (1, 1), (0, 1)], []⟩ : Polygon).fid =
        ((parseOr twoSquaresDoc).features.getD 0 ⟨0, none, []⟩).fid :=
  ⟨by unfold parseOr; rw [parse_twoSquares_eval]; exact List.mem_cons_self _ _,
    spec_parse_multipolygon_two_squares.2.2.2.2
      ⟨0, [(0, 0), (1, 0), (1, 1), (0, 1)], []⟩
      (by unfold parseOr; rw [parse_twoSquares_eval]; exact List.mem_cons_self _ _)⟩

/-- Concrete instantiation of the parse-error theorem's uniqueness part:
a wrong geometry type fails, and its error is MalformedInput. -/
theorem spec_parse_error_conditions_witness :
    parseFeature 0 ⟨none, GeometryJ.otherGeom⟩ = .error .malformedInput ∧
      (ParseErr.malformedInput = ParseErr.malformedInput) :=
  ⟨rfl, spec_parse_error_conditions.2.2.1 0 ⟨none, GeometryJ.otherGeom⟩
    ParseErr.malformedInput rfl⟩

/-- The triangle fan from a fixed apex over the remaining boundary: the
shape ear clipping takes on a ring in convex position. -/
def fanL {α : Type} (apex : α) : List α → List (α × α × α)
  | b :: c :: rest => (apex, b, c) :: fanL apex (c :: rest)
  | _ => []

theorem earClip_eq_fan {α : Type} (pt : α → Coord) :
    ∀ (n : ℕ) (a : α) (l : List α), l.length = n →
      chordConvex ((a :: l).map pt) → earClip pt (a :: l) = fanL a l := by
  intro n
  induction n using Nat.strong_induction_on with
  | _ n ih =>
    intro a l hlen hcv
    match l with
    | [] => rfl
    | [_] => rfl
    | b :: c :: rest =>
      rw [earClip_convex_step pt a b c rest hcv]
      have hcv' : chordConvex ((a :: c :: rest).map pt) := by
        have := @chordConvex_clip (pt a) (pt b) (pt c)
          (rest.map pt) (by simpa using hcv)
        simpa using this
      have hrec := ih (rest.length + 1) (by simp at hlen; omega) a (c :: rest)
        (by simp) hcv'
      rw [hrec]
      rfl

/-- The three directed edges of a triangle. -/
def triEdges {α : Type} (t : α × α × α) : List (α × α) :=
  [(t.1, t.2.1), (t.2.1, t.2.2), (t.2.2, t.1)]

/-- All directed edges of a triangle list. -/
def capEdges {α : Type} (ts : List (α × α × α)) : List (α × α) :=
  ts.flatMap triEdges

/-- The consecutive directed edges of a boundary walk from cur through the
list and back to first. -/
def cyc {α : Type} (first cur : α) : List α → List (α × α)
  | [] => [(cur, first)]
  | x :: xs => (cur, x) :: cyc first x xs

/-- The cyclic directed edges of a ring, recursively. -/
def cycEdges {α : Type} : List α → List (α × α)
  | [] => []
  | x :: xs => cyc x x xs

theorem zip_append_singleton_eq_cyc {α : Type} :
    ∀ (xs : List α) (cur first : α),
      (cur :: xs).zip (xs ++ [first]) = cyc first cur xs := by
  intro xs
  induction xs with
  | nil => intro cur first; rfl
  | cons x xs' ih =>
    intro cur first
    show (cur, x) :: (x :: xs').zip (xs' ++ [first]) = (cur, x) :: cyc first x xs'
    rw [ih]

theorem ringEdges_eq_cyc (l : List Coord) : ringEdges l = cycEdges l := by
  cases l with
  | nil => rfl
  | cons x xs =>
    unfold ringEdges
    rw [show (x :: xs).rotate 1 = xs ++ [x] by
      rw [List.rotate_cons_succ, List.rotate_zero]]
    exact zip_append_singleton_eq_cyc xs x x

theorem mem_capEdges_fanL {α : Type} (a : α) :
    ∀ (l : List α) (e : α × α), e ∈ capEdges (fanL a l) →
      e.1 ∈ a :: l ∧ e.2 ∈ a :: l := by
  intro l
  induction l with
  | nil => intro e he; simp [capEdges, fanL] at he
  | cons b t ih =>
    intro e he
    match t, he with
    | [], he => simp [capEdges, fanL] at he
    | c :: rest, he =>
      rw [show fanL a (b :: c :: rest) = (a, b, c) :: fanL a (c :: rest) from rfl,
        show capEdges ((a, b, c) :: fanL a (c :: rest)) =
          triEdges (a, b, c) ++ capEdges (fanL a (c :: rest)) from rfl] at he
      rcases List.mem_append.mp he with h1 | h2
      · simp only [triEdges, List.mem_cons, List.not_mem_nil, or_false] at h1
        rcases h1 with h | h | h <;>
          · subst h
            exact ⟨by simp, by simp⟩
      · have hsub : ∀ x, x ∈ (a :: c :: rest) → x ∈ a :: b :: c :: rest := by
          intro x hx
          simp only [List.mem_cons] at hx ⊢
          tauto
        have hc := ih e h2
        exact ⟨hsub _ hc.1, hsub _ hc.2⟩

theorem mem_cyc {α : Type} :
    ∀ (xs : List α) (first cur : α) (e : α × α), e ∈ cyc first cur xs →
      e.1 ∈ cur :: xs ∧ e.2 ∈ first :: xs := by
  intro xs
  induction xs with
  | nil =>
    intro first cur e he
    rcases List.mem_singleton.mp he with h
    subst h
    exact ⟨by simp, by simp⟩
  | cons x xs' ih =>
    intro first cur e he
    rcases List.mem_cons.mp he with h | h
    · subst h
      exact ⟨by simp, by simp⟩
    · have := ih first x e h
      constructor
      · rcases List.mem_cons.mp this.1 with h' | h'
        · simp [h']
        · simp [h']
      · rcases List.mem_cons.mp this.2 with h' | h'
        · simp [h']
        · simp [h']

theorem mem_cycEdges_support {α : Type} (l : List α) (e : α × α)
    (he : e ∈ cycEdges l) : e.1 ∈ l ∧ e.2 ∈ l := by
  match l with
  | [] => cases he
  | x :: xs => exact mem_cyc xs x x e he

/-- The combined directed-edge pool of a fan cap over the ring a :: l:
the cap's own half-edges together with the reversed ring boundary (the
half-edges the side walls will contribute at that level). -/
def edgePool {α : Type} (a : α) (l : List α) : Multiset (α × α) :=
  (capEdges (fanL a l) : Multiset (α × α)) +
    Multiset.map Prod.swap (cycEdges (a :: l) : Multiset (α × α))

theorem mem_edgePool_support {α : Type} (a : α) (l : List α) (e : α × α)
    (he : e ∈ edgePool a l) : e.1 ∈ a :: l ∧ e.2 ∈ a :: l := by
  rcases Multiset.mem_add.mp he with h | h
  · exact mem_capEdges_fanL a l e (by exact_mod_cast h)
  · rcases Multiset.mem_map.mp h with ⟨e', he', rfl⟩
    have hs := mem_cycEdges_support (a :: l) e' (by exact_mod_cast he')
    exact ⟨hs.2, hs.1⟩


theorem nodup_pairs4 {α : Type} {a b c : α} (hab : a ≠ b) (hbc : b ≠ c) (hac : a ≠ c) :
    ([(a, b), (b, c), (b, a), (c, b)] : List (α × α)).Nodup := by
  simp only [List.nodup_cons, List.mem_cons, List.not_mem_nil, List.mem_singleton,
    or_false, Prod.mk.injEq, not_or, List.nodup_nil, and_true]
  exact ⟨⟨fun h => hab h.1, fun h => hab h.1, hac⟩,
    ⟨fun h => hac h.2.symm, fun h => hbc h.1⟩, fun h => hbc h.1, not_false⟩

theorem nodup_pairs6 {α : Type} {a b c : α} (hab : a ≠ b) (hbc : b ≠ c) (hac : a ≠ c) :
    ([(a, b), (b, c), (c, a), (b, a), (c, b), (a, c)] : List (α × α)).Nodup := by
  simp only [List.nodup_cons, List.mem_cons, List.not_mem_nil, List.mem_singleton,
    or_false, Prod.mk.injEq, not_or, List.nodup_nil, and_true]
  exact ⟨⟨fun h => hab h.1, fun h => hac h.1, fun h => hab h.1, hac, fun h => hbc h.2⟩,
    ⟨fun h => hbc h.1, fun h => hac h.2.symm, fun h => hbc h.1, fun h => hab h.symm⟩,
    ⟨fun h => hbc h.symm, fun h => hab h.2, fun h => hac h.2⟩,
    ⟨fun h => hbc h.1, fun h => hac h.2⟩, fun h => hbc h.2, not_false⟩

theorem fan_edgePool_perfect {α : Type} (a : α) :
    ∀ (n : ℕ) (l : List α), l.length = n → (a :: l).Nodup → 2 ≤ l.length →
      Multiset.map Prod.swap (edgePool a l) = edgePool a l ∧ (edgePool a l).Nodup := by
  intro n
  induction n using Nat.strong_induction_on with
  | _ n ih =>
    intro l hlen hnd h2
    match l, h2 with
    | b :: c :: rest, _ =>
      have hmem_a := (List.nodup_cons.mp hnd).1
      have hnd_t := (List.nodup_cons.mp hnd).2
      have hmem_b := (List.nodup_cons.mp hnd_t).1
      have hab : a ≠ b := fun h => hmem_a (by rw [h]; exact List.mem_cons_self _ _)
      have hac : a ≠ c := fun h => hmem_a (by rw [h]; simp)
      have hbc : b ≠ c := fun h => hmem_b (by rw [h]; simp)
      cases rest with
      | nil =>
        have hE : edgePool a [b, c] =
            (([(a, b), (b, c), (c, a)] : List (α × α)) : Multiset (α × α)) +
              Multiset.map Prod.swap
                (([(a, b), (b, c), (c, a)] : List (α × α)) : Multiset (α × α)) := rfl
        constructor
        · rw [hE, Multiset.map_add, Multiset.map_map]
          have hid : Prod.swap ∘ Prod.swap = (id : α × α → α × α) := by
            funext x
            simp
          rw [hid, Multiset.map_id, add_comm]
        · rw [hE]
          show Multiset.Nodup ↑([(a, b), (b, c), (c, a)] ++
            [(b, a), (c, b), (a, c)] : List (α × α))
          rw [Multiset.coe_nodup]
          exact nodup_pairs6 hab hbc hac
      | cons d rest' =>
        have key : edgePool a (b :: c :: d :: rest') =
            (([(a, b), (b, c), (b, a), (c, b)] : List (α × α)) : Multiset (α × α)) +
              edgePool a (c :: d :: rest') := by
          show (↑([(a, b), (b, c), (c, a)] ++ capEdges (fanL a (c :: d :: rest'))) :
              Multiset (α × α)) +
              Multiset.map Prod.swap ↑((a, b) :: (b, c) :: cyc a c (d :: rest')) = _
          show _ = (([(a, b), (b, c), (b, a), (c, b)] : List (α × α)) : Multiset (α × α)) +
            ((capEdges (fanL a (c :: d :: rest')) : Multiset (α × α)) +
              Multiset.map Prod.swap ↑((a, c) :: cyc a c (d :: rest')))
          rw [show (↑([(a, b), (b, c), (c, a)] ++ capEdges (fanL a (c :: d :: rest'))) :
            Multiset (α × α)) = ↑([(a, b), (b, c), (c, a)] : List (α × α)) +
              ↑(capEdges (fanL a (c :: d :: rest'))) from rfl]
          rw [show ((((a, b) :: (b, c) :: cyc a c (d :: rest')) : List (α × α)) :
            Multiset (α × α)) = (a, b) ::ₘ (b, c) ::ₘ ↑(cyc a c (d :: rest')) from rfl]
          rw [show ((((a, c) :: cyc a c (d :: rest')) : List (α × α)) :
            Multiset (α × α)) = (a, c) ::ₘ ↑(cyc a c (d :: rest')) from rfl]
          rw [show (↑([(a, b), (b, c), (c, a)] : List (α × α)) : Multiset (α × α)) =
            (a, b) ::ₘ (b, c) ::ₘ (c, a) ::ₘ 0 from rfl]
          rw [show (↑([(a, b), (b, c), (b, a), (c, b)] : List (α × α)) : Multiset (α × α)) =
            (a, b) ::ₘ (b, c) ::ₘ (b, a) ::ₘ (c, b) ::ₘ 0 from rfl]
          simp only [Multiset.map_cons, Prod.swap_prod_mk, Multiset.map_add,
            Multiset.map_singleton, ← Multiset.singleton_add]
          abel
        have hsubl : (a :: c :: d :: rest').Sublist (a :: b :: c :: d :: rest') := by
          refine List.Sublist.cons₂ a ?_
          exact List.sublist_cons_self b (c :: d :: rest')
        have hnd' : (a :: c :: d :: rest').Nodup := hnd.sublist hsubl
        simp only [List.length_cons] at hlen
        obtain ⟨ihswap, ihnd⟩ := ih (rest'.length + 2) (by omega) (c :: d :: rest')
          (by simp) hnd' (by simp)
        have hb : b ∉ a :: c :: d :: rest' := by
          intro hmem
          rcases List.mem_cons.mp hmem with h | h
          · exact hab h.symm
          · exact hmem_b h
        have hdisj : ∀ e : α × α,
            e ∈ (([(a, b), (b, c), (b, a), (c, b)] : List (α × α)) : Multiset (α × α)) →
            e ∉ edgePool a (c :: d :: rest') := by
          intro e he hmem
          have hsupp := mem_edgePool_support a (c :: d :: rest') e hmem
          have heb : e.1 = b ∨ e.2 = b := by
            rcases List.mem_cons.mp (by exact_mod_cast he) with h | h
            · right; rw [h]
            rcases List.mem_cons.mp h with h' | h'
            · left; rw [h']
            rcases List.mem_cons.mp h' with h'' | h''
            · left; rw [h'']
            rcases List.mem_singleton.mp h'' with hsing
            right; rw [hsing]
          rcases heb with h | h
          · exact hb (h ▸ hsupp.1)
          · exact hb (h ▸ hsupp.2)
        constructor
        · rw [key, Multiset.map_add, ihswap]
          congr 1
          rw [show Multiset.map Prod.swap
              ((([(a, b), (b, c), (b, a), (c, b)] : List (α × α)) : Multiset (α × α))) =
              (([(b, a), (c, b), (a, b), (b, c)] : List (α × α)) : Multiset (α × α)) from rfl]
          rw [Multiset.coe_eq_coe]
          exact @List.perm_append_comm _ [(b, a), (c, b)] [(a, b), (b, c)]
        · rw [key, Multiset.nodup_add]
          refine ⟨?_, ihnd, Multiset.disjoint_left.mpr (fun {e} he => hdisj e he)⟩
          rw [Multiset.coe_nodup]
          exact nodup_pairs4 hab hbc hac

theorem fanL_map {α β : Type} (f : α → β) (apex : α) :
    ∀ l : List α, (fanL apex l).map (fun t => (f t.1, f t.2.1, f t.2.2)) =
      fanL (f apex) (l.map f) := by
  intro l
  induction l with
  | nil => rfl
  | cons b t ih =>
    match t with
    | [] => rfl
    | c :: rest =>
      show (f apex, f b, f c) ::
          (fanL apex (c :: rest)).map (fun t => (f t.1, f t.2.1, f t.2.2)) = _
      rw [ih]
      rfl

theorem cyc_map {α β : Type} (f : α → β) :
    ∀ (xs : List α) (first cur : α),
      (cyc first cur xs).map (fun e => (f e.1, f e.2)) =
        cyc (f first) (f cur) (xs.map f) := by
  intro xs
  induction xs with
  | nil => intro first cur; rfl
  | cons x t ih =>
    intro first cur
    show (f cur, f x) :: (cyc first x t).map (fun e => (f e.1, f e.2)) = _
    rw [ih]
    rfl

theorem cycEdges_map {α β : Type} (f : α → β) (l : List α) :
    (cycEdges l).map (fun e => (f e.1, f e.2)) = cycEdges (l.map f) := by
  cases l with
  | nil => rfl
  | cons x xs => exact cyc_map f xs x x

theorem cyc_map_fst {α : Type} :
    ∀ (xs : List α) (first cur : α), (cyc first cur xs).map Prod.fst = cur :: xs := by
  intro xs
  induction xs with
  | nil => intro first cur; rfl
  | cons x t ih =>
    intro first cur
    show cur :: (cyc first x t).map Prod.fst = _
    rw [ih]

theorem cyc_map_snd {α : Type} :
    ∀ (xs : List α) (first cur : α), (cyc first cur xs).map Prod.snd = xs ++ [first] := by
  intro xs
  induction xs with
  | nil => intro first cur; rfl
  | cons x t ih =>
    intro first cur
    show x :: (cyc first x t).map Prod.snd = _
    rw [ih]
    rfl

theorem cycEdges_map_fst {α : Type} (l : List α) : (cycEdges l).map Prod.fst = l := by
  cases l with
  | nil => rfl
  | cons x xs => exact cyc_map_fst xs x x

theorem cycEdges_map_snd_perm {α : Type} (x : α) (xs : List α) :
    ((cycEdges (x :: xs)).map Prod.snd).Perm (x :: xs) := by
  rw [show (cycEdges (x :: xs)).map Prod.snd = xs ++ [x] from cyc_map_snd xs x x]
  exact List.perm_append_comm.trans (List.Perm.refl _)

theorem mem_fanL {α : Type} (apex : α) :
    ∀ (l : List α) (t : α × α × α), t ∈ fanL apex l →
      t.1 = apex ∧ t.2.1 ∈ l ∧ t.2.2 ∈ l := by
  intro l
  induction l with
  | nil => intro t ht; cases ht
  | cons b u ih =>
    match u with
    | [] => intro t ht; cases ht
    | c :: rest =>
      intro t ht
      rcases List.mem_cons.mp ht with h | h
      · subst h
        exact ⟨rfl, by simp, by simp⟩
      · have hc := ih t h
        exact ⟨hc.1, by simp [List.mem_cons.mp hc.2.1],
          by simp [List.mem_cons.mp hc.2.2]⟩

theorem cyc_ne {α : Type} :
    ∀ (xs : List α) (first cur : α), (cur :: xs).Nodup → first ∉ xs →
      (xs = [] → cur ≠ first) → ∀ e ∈ cyc first cur xs, e.1 ≠ e.2 := by
  intro xs
  induction xs with
  | nil =>
    intro first cur _ _ hne e he
    rcases List.mem_singleton.mp he with h
    subst h
    exact hne rfl
  | cons x t ih =>
    intro first cur hnd hf _ e he
    rcases List.mem_cons.mp he with h | h
    · subst h
      intro hx
      have hx' : cur = x := hx
      exact (List.nodup_cons.mp hnd).1 (hx' ▸ List.mem_cons_self _ _)
    · have hf' : first ∉ t := fun hm => hf (List.mem_cons_of_mem x hm)
      have hfx : first ≠ x := fun hm => hf (hm ▸ List.mem_cons_self _ _)
      exact ih first x (List.nodup_cons.mp hnd).2 hf'
        (fun _ => fun hxf => hfx hxf.symm) e h

theorem cycEdges_ne {α : Type} (l : List α) (hnd : l.Nodup) (h2 : 2 ≤ l.length) :
    ∀ e ∈ cycEdges l, e.1 ≠ e.2 := by
  match l, h2 with
  | x :: y :: t, _ =>
    exact cyc_ne (y :: t) x x hnd (List.nodup_cons.mp hnd).1 (fun h => by cases h)

theorem mem_enumFrom_getD {α : Type} (d : α) :
    ∀ (l : List α) (n : ℕ) (q : ℕ × α), q ∈ List.enumFrom n l →
      n ≤ q.1 ∧ q.1 - n < l.length ∧ l.getD (q.1 - n) d = q.2 := by
  intro l
  induction l with
  | nil => intro n q hq; cases hq
  | cons x t ih =>
    intro n q hq
    rcases List.mem_cons.mp hq with h | h
    · subst h
      exact ⟨le_refl n, by simp, by simp⟩
    · obtain ⟨h1, h2, h3⟩ := ih (n + 1) q h
      refine ⟨by omega, by simp only [List.length_cons]; omega, ?_⟩
      have hq1 : q.1 - n = (q.1 - (n + 1)) + 1 := by omega
      rw [hq1, List.getD_cons_succ]
      exact h3

theorem getD_flatMap_four {α β : Type} (f : α → List β) (hsz : ∀ e, (f e).length = 4)
    (d : β) (dflt : α) :
    ∀ (es : List α) (k j : ℕ), k < es.length → j < 4 →
      (es.flatMap f).getD (4 * k + j) d = (f (es.getD k dflt)).getD j d := by
  intro es
  induction es with
  | nil => intro k j hk _; cases hk
  | cons e t ih =>
    intro k j hk hj
    cases k with
    | zero =>
      show ((f e ++ t.flatMap f).getD (4 * 0 + j) d) = _
      rw [List.getD_append _ _ _ _ (by rw [hsz e]; omega)]
      simp
    | succ k' =>
      show ((f e ++ t.flatMap f).getD (4 * (k' + 1) + j) d) = _
      rw [List.getD_append_right _ _ _ _ (by rw [hsz e]; omega)]
      have harith : 4 * (k' + 1) + j - (f e).length = 4 * k' + j := by
        rw [hsz e]; omega
      rw [harith]
      exact ih k' j (by simpa using hk) hj

theorem range_flatMap_getD {α β : Type} (g : α → List β) (dflt : α) :
    ∀ es : List α, (List.range es.length).flatMap (fun k => g (es.getD k dflt)) =
      es.flatMap g := by
  intro es
  induction es with
  | nil => rfl
  | cons e t ih =>
    show (List.range (t.length + 1)).flatMap (fun k => g ((e :: t).getD k dflt)) = _
    rw [List.range_succ_eq_map]
    show g e ++ (List.map Nat.succ (List.range t.length)).flatMap
      (fun k => g ((e :: t).getD k dflt)) = _
    rw [List.flatMap_map]
    show g e ++ (List.range t.length).flatMap (fun k => g (t.getD k dflt)) = _
    rw [ih]
    rfl

/-- The position of buffer index i of a mesh. -/
def vtx (m : MeshOutput) (i : ℕ) : Pt3 := m.positions.getD i ((0:ℚ), (0:ℚ), (0:ℚ))

/-- The triangles of the index buffer with every index resolved to its
position through the position buffer. -/
def resolvedTris (m : MeshOutput) : List (Pt3 × Pt3 × Pt3) :=
  m.indices.map (fun t => (vtx m t.1, vtx m t.2.1, vtx m t.2.2))

/-- The half-edges of a mesh: the directed edges of the index buffer's
triangles, with indices resolved through the position buffer (duplicated
wall vertices thereby meet the cap vertices they share a position with). -/
def halfEdges (m : MeshOutput) : List (Pt3 × Pt3) :=
  capEdges (resolvedTris m)

theorem coe_flatMap_congr {α β : Type} (l : List α) (f g : α → List β)
    (h : ∀ x ∈ l, (↑(f x) : Multiset β) = ↑(g x)) :
    (↑(l.flatMap f) : Multiset β) = ↑(l.flatMap g) := by
  induction l with
  | nil => rfl
  | cons x t ih =>
    show (↑(f x ++ t.flatMap f) : Multiset β) = ↑(g x ++ t.flatMap g)
    rw [show (↑(f x ++ t.flatMap f) : Multiset β) = ↑(f x) + ↑(t.flatMap f) from rfl,
      show (↑(g x ++ t.flatMap g) : Multiset β) = ↑(g x) + ↑(t.flatMap g) from rfl,
      h x (List.mem_cons_self _ _), ih (fun y hy => h y (List.mem_cons_of_mem x hy))]

theorem flatMap_six_msets {α β : Type} (f1 f2 f3 f4 f5 f6 : α → β) :
    ∀ l : List α,
      (↑(l.flatMap (fun x => [f1 x, f2 x, f3 x, f4 x, f5 x, f6 x])) : Multiset β) =
        ↑(l.map f1) + ↑(l.map f2) + ↑(l.map f3) + ↑(l.map f4) + ↑(l.map f5) +
          ↑(l.map f6) := by
  intro l
  induction l with
  | nil => rfl
  | cons x t ih =>
    show (↑([f1 x, f2 x, f3 x, f4 x, f5 x, f6 x] ++
      t.flatMap (fun x => [f1 x, f2 x, f3 x, f4 x, f5 x, f6 x])) : Multiset β) = _
    rw [show (↑([f1 x, f2 x, f3 x, f4 x, f5 x, f6 x] ++
        t.flatMap (fun x => [f1 x, f2 x, f3 x, f4 x, f5 x, f6 x])) : Multiset β) =
      f1 x ::ₘ f2 x ::ₘ f3 x ::ₘ f4 x ::ₘ f5 x ::ₘ f6 x ::ₘ
        ↑(t.flatMap (fun x => [f1 x, f2 x, f3 x, f4 x, f5 x, f6 x])) from rfl]
    rw [ih]
    rw [show (↑((x :: t).map f1) : Multiset β) = f1 x ::ₘ ↑(t.map f1) from rfl,
      show (↑((x :: t).map f2) : Multiset β) = f2 x ::ₘ ↑(t.map f2) from rfl,
      show (↑((x :: t).map f3) : Multiset β) = f3 x ::ₘ ↑(t.map f3) from rfl,
      show (↑((x :: t).map f4) : Multiset β) = f4 x ::ₘ ↑(t.map f4) from rfl,
      show (↑((x :: t).map f5) : Multiset β) = f5 x ::ₘ ↑(t.map f5) from rfl,
      show (↑((x :: t).map f6) : Multiset β) = f6 x ::ₘ ↑(t.map f6) from rfl]
    simp only [← Multiset.singleton_add]
    abel

theorem getMesh_flat_fields (p : Polygon) (o : MeshOptions) (m : MeshOutput)
    (hholes : p.holes = []) (hflat : o.ellipsoid = none)
    (hm : getMesh p o = .ok m) :
    m.positions = p.outer.map (fun c => flatPosition c o.thickness) ++
        (p.outer.map (fun c => flatPosition c 0) ++
          (cycEdges p.outer).flatMap (fun e =>
            [flatPosition e.1 o.thickness, flatPosition e.2 o.thickness,
              flatPosition e.1 0, flatPosition e.2 0])) ∧
      m.indices = (capTris [p.outer]).map (fun t => (t.1.1, t.2.1.1, t.2.2.1)) ++
        ((capTris [p.outer]).map (fun t =>
            (t.1.1 + p.outer.length, t.2.2.1 + p.outer.length,
              t.2.1.1 + p.outer.length)) ++
          (List.range (cycEdges p.outer).length).flatMap (fun k =>
            [(2 * p.outer.length + 4 * k + 1, 2 * p.outer.length + 4 * k,
                2 * p.outer.length + 4 * k + 2),
              (2 * p.outer.length + 4 * k + 2, 2 * p.outer.length + 4 * k + 3,
                2 * p.outer.length + 4 * k + 1)])) := by
  have hrings : resolveRings p o = [p.outer] := by
    unfold resolveRings
    rw [hflat, hholes]
  have hproj : projPos o = flatPosition := by
    unfold projPos
    rw [hflat]
  have hcap : ([p.outer] : List (List Coord)).flatMap (fun r => r) = p.outer := by
    simp
  have hes : wallEdges [p.outer] = cycEdges p.outer := by
    unfold wallEdges
    simp [ringEdges_eq_cyc]
  simp only [getMesh] at hm
  rw [hrings, hproj] at hm
  simp only [hcap, hes] at hm
  by_cases hemp : (capTris [p.outer]).isEmpty = true
  · rw [if_pos hemp] at hm
    cases hm
  · rw [if_neg hemp] at hm
    have hrec := Except.ok.inj hm
    constructor
    · rw [← hrec]
      simp [List.append_assoc]
    · rw [← hrec]
      simp [List.append_assoc]

theorem flatMap_congr_mem {α β : Type} (l : List α) (f g : α → List β)
    (h : ∀ x ∈ l, f x = g x) : l.flatMap f = l.flatMap g := by
  induction l with
  | nil => rfl
  | cons x t ih =>
    show f x ++ t.flatMap f = g x ++ t.flatMap g
    rw [h x (List.mem_cons_self _ _), ih (fun y hy => h y (List.mem_cons_of_mem x hy))]

theorem capTris_single (a : Coord) (rest : List Coord)
    (hcv : chordConvex (a :: rest)) :
    capTris [a :: rest] = fanL ((0 : ℕ), a) (List.enumFrom 1 rest) := by
  show earClip Prod.snd (mergedRing [a :: rest]) = _
  have hmr : mergedRing [a :: rest] = ((0 : ℕ), a) :: List.enumFrom 1 rest := rfl
  rw [hmr]
  exact earClip_eq_fan Prod.snd (List.enumFrom 1 rest).length ((0 : ℕ), a)
    (List.enumFrom 1 rest) rfl
    (by simpa [List.enumFrom_map_snd] using hcv)

theorem vtx_flat_top (m : MeshOutput) (outer : List Coord) (th : ℚ) (tail : List Pt3)
    (hPos : m.positions = outer.map (fun c => flatPosition c th) ++ tail)
    (i : ℕ) (hi : i < outer.length) :
    vtx m i = flatPosition (outer.getD i ((0 : ℚ), (0 : ℚ))) th := by
  unfold vtx
  rw [hPos, List.getD_append _ _ _ _ (by simpa using hi),
    List.getD_eq_getElem _ _ (by simpa using hi), List.getElem_map,
    ← List.getD_eq_getElem outer ((0 : ℚ), (0 : ℚ)) hi]

theorem vtx_flat_bot (m : MeshOutput) (outer : List Coord) (th : ℚ) (tail : List Pt3)
    (hPos : m.positions = outer.map (fun c => flatPosition c th) ++
      (outer.map (fun c => flatPosition c 0) ++ tail))
    (i : ℕ) (hi : i < outer.length) :
    vtx m (outer.length + i) = flatPosition (outer.getD i ((0 : ℚ), (0 : ℚ))) 0 := by
  unfold vtx
  rw [hPos, List.getD_append_right _ _ _ _ (by simp), List.length_map]
  have hsub : outer.length + i - outer.length = i := by omega
  rw [hsub, List.getD_append _ _ _ _ (by simpa using hi),
    List.getD_eq_getElem _ _ (by simpa using hi), List.getElem_map,
    ← List.getD_eq_getElem outer ((0 : ℚ), (0 : ℚ)) hi]

theorem vtx_flat_wall (m : MeshOutput) (outer : List Coord) (th : ℚ)
    (hPos : m.positions = outer.map (fun c => flatPosition c th) ++
      (outer.map (fun c => flatPosition c 0) ++
        (cycEdges outer).flatMap (fun e =>
          [flatPosition e.1 th, flatPosition e.2 th,
            flatPosition e.1 0, flatPosition e.2 0])))
    (k j : ℕ) (hk : k < (cycEdges outer).length) (hj : j < 4) :
    vtx m (2 * outer.length + 4 * k + j) =
      [flatPosition ((cycEdges outer).getD k (((0 : ℚ), (0 : ℚ)), ((0 : ℚ), (0 : ℚ)))).1 th,
        flatPosition ((cycEdges outer).getD k (((0 : ℚ), (0 : ℚ)), ((0 : ℚ), (0 : ℚ)))).2 th,
        flatPosition ((cycEdges outer).getD k (((0 : ℚ), (0 : ℚ)), ((0 : ℚ), (0 : ℚ)))).1 0,
        flatPosition ((cycEdges outer).getD k (((0 : ℚ), (0 : ℚ)), ((0 : ℚ), (0 : ℚ)))).2 0].getD
        j ((0 : ℚ), (0 : ℚ), (0 : ℚ)) := by
  unfold vtx
  rw [hPos, List.getD_append_right _ _ _ _ (by simp; omega), List.length_map]
  have hsub1 : 2 * outer.length + 4 * k + j - outer.length =
      outer.length + (4 * k + j) := by omega
  rw [hsub1, List.getD_append_right _ _ _ _ (by simp), List.length_map]
  have hsub2 : outer.length + (4 * k + j) - outer.length = 4 * k + j := by omega
  rw [hsub2]
  exact getD_flatMap_four
    (fun e => [flatPosition e.1 th, flatPosition e.2 th,
      flatPosition e.1 0, flatPosition e.2 0])
    (fun e => rfl) ((0 : ℚ), (0 : ℚ), (0 : ℚ)) (((0 : ℚ), (0 : ℚ)), ((0 : ℚ), (0 : ℚ)))
    (cycEdges outer) k j hk hj

/-- The intended multiset of half-edges of a flat hole-free solid over the
ring a :: rest with thickness th: the full top-cap pool (cap half-edges
plus reversed boundary), the mirrored bottom-cap pool, and the vertical and
diagonal wall edges. -/
def flatPool (a : Coord) (rest : List Coord) (th : ℚ) : Multiset (Pt3 × Pt3) :=
  edgePool (flatPosition a th) (rest.map (fun c => flatPosition c th)) +
    Multiset.map Prod.swap
      (edgePool (flatPosition a 0) (rest.map (fun c => flatPosition c 0))) +
    ((↑((cycEdges (a :: rest)).map
        (fun e => (flatPosition e.1 th, flatPosition e.1 0))) : Multiset (Pt3 × Pt3)) +
      ↑((cycEdges (a :: rest)).map (fun e => (flatPosition e.2 0, flatPosition e.2 th))) +
      ↑((cycEdges (a :: rest)).map (fun e => (flatPosition e.1 0, flatPosition e.2 th))) +
      ↑((cycEdges (a :: rest)).map (fun e => (flatPosition e.2 th, flatPosition e.1 0))))

theorem coe_append3 {α : Type} (x y z : List α) :
    (↑(x ++ (y ++ z)) : Multiset α) = ↑x + (↑y + ↑z) := by
  rw [← Multiset.coe_add, ← Multiset.coe_add]

theorem capEdges_reorder {α : Type} (l : List (α × α × α)) :
    (↑(capEdges (l.map (fun t => (t.1, t.2.2, t.2.1)))) : Multiset (α × α)) =
      Multiset.map Prod.swap ↑(capEdges l) := by
  calc (↑(capEdges (l.map (fun t => (t.1, t.2.2, t.2.1)))) : Multiset (α × α))
      = ↑(l.flatMap (fun t => triEdges (t.1, t.2.2, t.2.1))) := by
        unfold capEdges
        rw [List.flatMap_map]
    _ = ↑(l.flatMap (fun t => (triEdges t).map Prod.swap)) := by
        refine coe_flatMap_congr l _ _ ?_
        intro t _
        obtain ⟨x, s⟩ := t
        obtain ⟨y, z⟩ := s
        exact Multiset.coe_eq_coe.mpr
          (List.reverse_perm [((x, z) : α × α), (z, y), (y, x)]).symm
    _ = ↑((l.flatMap triEdges).map Prod.swap) := by rw [List.map_flatMap]
    _ = Multiset.map Prod.swap ↑(capEdges l) := by rw [Multiset.map_coe]; rfl


theorem halfEdges_flat_decomp (m : MeshOutput) (a : Coord) (rest : List Coord) (th : ℚ)
    (hPos : m.positions = (a :: rest).map (fun c => flatPosition c th) ++
        ((a :: rest).map (fun c => flatPosition c 0) ++
          (cycEdges (a :: rest)).flatMap (fun e =>
            [flatPosition e.1 th, flatPosition e.2 th,
              flatPosition e.1 0, flatPosition e.2 0])))
    (hIdx : m.indices =
        (fanL ((0 : ℕ), a) (List.enumFrom 1 rest)).map
            (fun t => (t.1.1, t.2.1.1, t.2.2.1)) ++
          ((fanL ((0 : ℕ), a) (List.enumFrom 1 rest)).map (fun t =>
              (t.1.1 + (a :: rest).length, t.2.2.1 + (a :: rest).length,
                t.2.1.1 + (a :: rest).length)) ++
            (List.range (cycEdges (a :: rest)).length).flatMap (fun k =>
              [(2 * (a :: rest).length + 4 * k + 1, 2 * (a :: rest).length + 4 * k,
                  2 * (a :: rest).length + 4 * k + 2),
                (2 * (a :: rest).length + 4 * k + 2, 2 * (a :: rest).length + 4 * k + 3,
                  2 * (a :: rest).length + 4 * k + 1)]))) :
    (↑(halfEdges m) : Multiset (Pt3 × Pt3)) = flatPool a rest th := by
  have hvT := vtx_flat_top m (a :: rest) th _ hPos
  have hvB := vtx_flat_bot m (a :: rest) th _ hPos
  have hvW := vtx_flat_wall m (a :: rest) th hPos
  have hidxmem : ∀ q ∈ List.enumFrom 1 rest, q.1 < (a :: rest).length ∧
      (a :: rest).getD q.1 ((0 : ℚ), (0 : ℚ)) = q.2 := by
    intro q hq
    obtain ⟨h1, h2, h3⟩ := mem_enumFrom_getD ((0 : ℚ), (0 : ℚ)) rest 1 q hq
    refine ⟨by simp only [List.length_cons]; omega, ?_⟩
    have hq1 : q.1 = (q.1 - 1) + 1 := by omega
    rw [hq1, List.getD_cons_succ]
    exact h3
  have hT : (fanL ((0 : ℕ), a) (List.enumFrom 1 rest)).map
      (fun t => (vtx m t.1.1, vtx m t.2.1.1, vtx m t.2.2.1)) =
      fanL (flatPosition a th) (rest.map (fun c => flatPosition c th)) := by
    have hcongr : ∀ t ∈ fanL ((0 : ℕ), a) (List.enumFrom 1 rest),
        (vtx m t.1.1, vtx m t.2.1.1, vtx m t.2.2.1) =
        ((fun q : ℕ × Coord => flatPosition q.2 th) t.1,
          (fun q : ℕ × Coord => flatPosition q.2 th) t.2.1,
          (fun q : ℕ × Coord => flatPosition q.2 th) t.2.2) := by
      intro t ht
      obtain ⟨t1, ts⟩ := t
      obtain ⟨t2, t3⟩ := ts
      obtain ⟨h1, h2, h3⟩ := mem_fanL _ _ _ ht
      subst h1
      obtain ⟨h21, h22⟩ := hidxmem _ h2
      obtain ⟨h31, h32⟩ := hidxmem _ h3
      have e1 : vtx m ((((0 : ℕ), a) : ℕ × Coord).1) = flatPosition a th :=
        hvT 0 (by simp)
      have e2 : vtx m t2.1 = flatPosition t2.2 th := by
        have h := hvT t2.1 h21
        rw [h22] at h
        exact h
      have e3 : vtx m t3.1 = flatPosition t3.2 th := by
        have h := hvT t3.1 h31
        rw [h32] at h
        exact h
      show (vtx m (((0 : ℕ), a) : ℕ × Coord).1, vtx m t2.1, vtx m t3.1) =
        (flatPosition a th, flatPosition t2.2 th, flatPosition t3.2 th)
      rw [e1, e2, e3]
    rw [List.map_congr_left hcongr,
      fanL_map (fun q : ℕ × Coord => flatPosition q.2 th) ((0 : ℕ), a)
        (List.enumFrom 1 rest),
      show (List.enumFrom 1 rest).map (fun q : ℕ × Coord => flatPosition q.2 th) =
        rest.map (fun c => flatPosition c th) from by
          rw [show (fun q : ℕ × Coord => flatPosition q.2 th) =
            (fun c => flatPosition c th) ∘ Prod.snd from rfl, ← List.map_map,
            List.enumFrom_map_snd]]
  have hB : (fanL ((0 : ℕ), a) (List.enumFrom 1 rest)).map
      (fun t => (vtx m (t.1.1 + (a :: rest).length),
        vtx m (t.2.2.1 + (a :: rest).length), vtx m (t.2.1.1 + (a :: rest).length))) =
      (fanL (flatPosition a 0) (rest.map (fun c => flatPosition c 0))).map
        (fun t => (t.1, t.2.2, t.2.1)) := by
    have hcongr : ∀ t ∈ fanL ((0 : ℕ), a) (List.enumFrom 1 rest),
        (vtx m (t.1.1 + (a :: rest).length), vtx m (t.2.2.1 + (a :: rest).length),
          vtx m (t.2.1.1 + (a :: rest).length)) =
        (fun t : (ℕ × Coord) × (ℕ × Coord) × (ℕ × Coord) =>
          ((fun s : Pt3 × Pt3 × Pt3 => (s.1, s.2.2, s.2.1))
            ((fun q : ℕ × Coord => flatPosition q.2 0) t.1,
              (fun q : ℕ × Coord => flatPosition q.2 0) t.2.1,
              (fun q : ℕ × Coord => flatPosition q.2 0) t.2.2))) t := by
      intro t ht
      obtain ⟨t1, ts⟩ := t
      obtain ⟨t2, t3⟩ := ts
      obtain ⟨h1, h2, h3⟩ := mem_fanL _ _ _ ht
      subst h1
      obtain ⟨h21, h22⟩ := hidxmem _ h2
      obtain ⟨h31, h32⟩ := hidxmem _ h3
      have e1 : vtx m ((((0 : ℕ), a) : ℕ × Coord).1 + (a :: rest).length) =
          flatPosition a 0 := by
        have h := hvB 0 (by simp)
        rw [Nat.add_comm] at h
        exact h
      have e2 : vtx m (t2.1 + (a :: rest).length) = flatPosition t2.2 0 := by
        have h := hvB t2.1 h21
        rw [Nat.add_comm, h22] at h
        exact h
      have e3 : vtx m (t3.1 + (a :: rest).length) = flatPosition t3.2 0 := by
        have h := hvB t3.1 h31
        rw [Nat.add_comm, h32] at h
        exact h
      show (vtx m ((((0 : ℕ), a) : ℕ × Coord).1 + (a :: rest).length),
          vtx m (t3.1 + (a :: rest).length), vtx m (t2.1 + (a :: rest).length)) =
        (flatPosition a 0, flatPosition t3.2 0, flatPosition t2.2 0)
      rw [e1, e2, e3]
    rw [List.map_congr_left hcongr,
      show (fun t : (ℕ × Coord) × (ℕ × Coord) × (ℕ × Coord) =>
          ((fun s : Pt3 × Pt3 × Pt3 => (s.1, s.2.2, s.2.1))
            ((fun q : ℕ × Coord => flatPosition q.2 0) t.1,
              (fun q : ℕ × Coord => flatPosition q.2 0) t.2.1,
              (fun q : ℕ × Coord => flatPosition q.2 0) t.2.2))) =
        ((fun s : Pt3 × Pt3 × Pt3 => (s.1, s.2.2, s.2.1)) ∘
          (fun t : (ℕ × Coord) × (ℕ × Coord) × (ℕ × Coord) =>
            ((fun q : ℕ × Coord => flatPosition q.2 0) t.1,
              (fun q : ℕ × Coord => flatPosition q.2 0) t.2.1,
              (fun q : ℕ × Coord => flatPosition q.2 0) t.2.2))) from rfl,
      ← List.map_map,
      fanL_map (fun q : ℕ × Coord => flatPosition q.2 0) ((0 : ℕ), a)
        (List.enumFrom 1 rest),
      show (List.enumFrom 1 rest).map (fun q : ℕ × Coord => flatPosition q.2 0) =
        rest.map (fun c => flatPosition c 0) from by
          rw [show (fun q : ℕ × Coord => flatPosition q.2 0) =
            (fun c => flatPosition c 0) ∘ Prod.snd from rfl, ← List.map_map,
            List.enumFrom_map_snd]]
  have hW : ((List.range (cycEdges (a :: rest)).length).flatMap (fun k =>
      [(2 * (a :: rest).length + 4 * k + 1, 2 * (a :: rest).length + 4 * k,
          2 * (a :: rest).length + 4 * k + 2),
        (2 * (a :: rest).length + 4 * k + 2, 2 * (a :: rest).length + 4 * k + 3,
          2 * (a :: rest).length + 4 * k + 1)])).map
        (fun t => (vtx m t.1, vtx m t.2.1, vtx m t.2.2)) =
      (cycEdges (a :: rest)).flatMap (fun e =>
        [(flatPosition e.2 th, flatPosition e.1 th, flatPosition e.1 0),
          (flatPosition e.1 0, flatPosition e.2 0, flatPosition e.2 th)]) := by
    rw [List.map_flatMap]
    rw [flatMap_congr_mem _ _ (fun k =>
      [(flatPosition ((cycEdges (a :: rest)).getD k
            (((0 : ℚ), (0 : ℚ)), ((0 : ℚ), (0 : ℚ)))).2 th,
          flatPosition ((cycEdges (a :: rest)).getD k
            (((0 : ℚ), (0 : ℚ)), ((0 : ℚ), (0 : ℚ)))).1 th,
          flatPosition ((cycEdges (a :: rest)).getD k
            (((0 : ℚ), (0 : ℚ)), ((0 : ℚ), (0 : ℚ)))).1 0),
        (flatPosition ((cycEdges (a :: rest)).getD k
            (((0 : ℚ), (0 : ℚ)), ((0 : ℚ), (0 : ℚ)))).1 0,
          flatPosition ((cycEdges (a :: rest)).getD k
            (((0 : ℚ), (0 : ℚ)), ((0 : ℚ), (0 : ℚ)))).2 0,
          flatPosition ((cycEdges (a :: rest)).getD k
            (((0 : ℚ), (0 : ℚ)), ((0 : ℚ), (0 : ℚ)))).2 th)]) ?_]
    · exact range_flatMap_getD (fun e =>
        [(flatPosition e.2 th, flatPosition e.1 th, flatPosition e.1 0),
          (flatPosition e.1 0, flatPosition e.2 0, flatPosition e.2 th)])
        (((0 : ℚ), (0 : ℚ)), ((0 : ℚ), (0 : ℚ))) (cycEdges (a :: rest))
    · intro k hk
      have hkL : k < (cycEdges (a :: rest)).length := List.mem_range.mp hk
      have h0 : vtx m (2 * (a :: rest).length + 4 * k) =
          flatPosition ((cycEdges (a :: rest)).getD k
            (((0 : ℚ), (0 : ℚ)), ((0 : ℚ), (0 : ℚ)))).1 th := hvW k 0 hkL (by omega)
      have h1 : vtx m (2 * (a :: rest).length + 4 * k + 1) =
          flatPosition ((cycEdges (a :: rest)).getD k
            (((0 : ℚ), (0 : ℚ)), ((0 : ℚ), (0 : ℚ)))).2 th := hvW k 1 hkL (by omega)
      have h2 : vtx m (2 * (a :: rest).length + 4 * k + 2) =
          flatPosition ((cycEdges (a :: rest)).getD k
            (((0 : ℚ), (0 : ℚ)), ((0 : ℚ), (0 : ℚ)))).1 0 := hvW k 2 hkL (by omega)
      have h3 : vtx m (2 * (a :: rest).length + 4 * k + 3) =
          flatPosition ((cycEdges (a :: rest)).getD k
            (((0 : ℚ), (0 : ℚ)), ((0 : ℚ), (0 : ℚ)))).2 0 := hvW k 3 hkL (by omega)
      show [(vtx m (2 * (a :: rest).length + 4 * k + 1),
          vtx m (2 * (a :: rest).length + 4 * k),
          vtx m (2 * (a :: rest).length + 4 * k + 2)),
        (vtx m (2 * (a :: rest).length + 4 * k + 2),
          vtx m (2 * (a :: rest).length + 4 * k + 3),
          vtx m (2 * (a :: rest).length + 4 * k + 1))] = _
      rw [h0, h1, h2, h3]
  show (↑(capEdges (resolvedTris m)) : Multiset (Pt3 × Pt3)) = _
  unfold resolvedTris
  rw [hIdx, List.map_append, List.map_append, List.map_map, List.map_map]
  rw [show ((fun t : ℕ × ℕ × ℕ => (vtx m t.1, vtx m t.2.1, vtx m t.2.2)) ∘
      (fun t : (ℕ × Coord) × (ℕ × Coord) × (ℕ × Coord) =>
        (t.1.1, t.2.1.1, t.2.2.1))) =
    (fun t : (ℕ × Coord) × (ℕ × Coord) × (ℕ × Coord) =>
      (vtx m t.1.1, vtx m t.2.1.1, vtx m t.2.2.1)) from rfl, hT]
  rw [show ((fun t : ℕ × ℕ × ℕ => (vtx m t.1, vtx m t.2.1, vtx m t.2.2)) ∘
      (fun t : (ℕ × Coord) × (ℕ × Coord) × (ℕ × Coord) =>
        (t.1.1 + (a :: rest).length, t.2.2.1 + (a :: rest).length,
          t.2.1.1 + (a :: rest).length))) =
    (fun t : (ℕ × Coord) × (ℕ × Coord) × (ℕ × Coord) =>
      (vtx m (t.1.1 + (a :: rest).length), vtx m (t.2.2.1 + (a :: rest).length),
        vtx m (t.2.1.1 + (a :: rest).length))) from rfl, hB]
  rw [hW]
  rw [show capEdges
      (fanL (flatPosition a th) (rest.map (fun c => flatPosition c th)) ++
        ((fanL (flatPosition a 0) (rest.map (fun c => flatPosition c 0))).map
            (fun t => (t.1, t.2.2, t.2.1)) ++
          (cycEdges (a :: rest)).flatMap (fun e =>
            [(flatPosition e.2 th, flatPosition e.1 th, flatPosition e.1 0),
              (flatPosition e.1 0, flatPosition e.2 0, flatPosition e.2 th)]))) =
    capEdges (fanL (flatPosition a th) (rest.map (fun c => flatPosition c th))) ++
      (capEdges ((fanL (flatPosition a 0) (rest.map (fun c => flatPosition c 0))).map
          (fun t => (t.1, t.2.2, t.2.1))) ++
        capEdges ((cycEdges (a :: rest)).flatMap (fun e =>
          [(flatPosition e.2 th, flatPosition e.1 th, flatPosition e.1 0),
            (flatPosition e.1 0, flatPosition e.2 0, flatPosition e.2 th)]))) from by
      unfold capEdges
      rw [List.flatMap_append, List.flatMap_append]]
  rw [coe_append3]
  rw [capEdges_reorder]
  have hWsplit : (↑(capEdges ((cycEdges (a :: rest)).flatMap (fun e =>
      [(flatPosition e.2 th, flatPosition e.1 th, flatPosition e.1 0),
        (flatPosition e.1 0, flatPosition e.2 0, flatPosition e.2 th)]))) :
      Multiset (Pt3 × Pt3)) =
      ↑((cycEdges (a :: rest)).map (fun e => (flatPosition e.2 th, flatPosition e.1 th))) +
      ↑((cycEdges (a :: rest)).map (fun e => (flatPosition e.1 th, flatPosition e.1 0))) +
      ↑((cycEdges (a :: rest)).map (fun e => (flatPosition e.1 0, flatPosition e.2 th))) +
      ↑((cycEdges (a :: rest)).map (fun e => (flatPosition e.1 0, flatPosition e.2 0))) +
      ↑((cycEdges (a :: rest)).map (fun e => (flatPosition e.2 0, flatPosition e.2 th))) +
      ↑((cycEdges (a :: rest)).map (fun e => (flatPosition e.2 th, flatPosition e.1 0))) := by
    unfold capEdges
    rw [List.flatMap_assoc (cycEdges (a :: rest)) (fun e =>
      [(flatPosition e.2 th, flatPosition e.1 th, flatPosition e.1 0),
        (flatPosition e.1 0, flatPosition e.2 0, flatPosition e.2 th)]) triEdges]
    exact flatMap_six_msets
      (fun e => (flatPosition e.2 th, flatPosition e.1 th))
      (fun e => (flatPosition e.1 th, flatPosition e.1 0))
      (fun e => (flatPosition e.1 0, flatPosition e.2 th))
      (fun e => (flatPosition e.1 0, flatPosition e.2 0))
      (fun e => (flatPosition e.2 0, flatPosition e.2 th))
      (fun e => (flatPosition e.2 th, flatPosition e.1 0))
      (cycEdges (a :: rest))
  rw [hWsplit]
  have hE1 : edgePool (flatPosition a th) (rest.map (fun c => flatPosition c th)) =
      (↑(capEdges (fanL (flatPosition a th)
        (rest.map (fun c => flatPosition c th)))) : Multiset (Pt3 × Pt3)) +
      ↑((cycEdges (a :: rest)).map
        (fun e => (flatPosition e.2 th, flatPosition e.1 th))) := by
    unfold edgePool
    show _ + Multiset.map Prod.swap
      (↑(cycEdges ((a :: rest).map (fun c => flatPosition c th))) :
        Multiset (Pt3 × Pt3)) = _
    rw [← cycEdges_map (fun c => flatPosition c th) (a :: rest),
      Multiset.map_coe, List.map_map]
    rfl
  have hE2 : Multiset.map Prod.swap
      (edgePool (flatPosition a 0) (rest.map (fun c => flatPosition c 0))) =
      Multiset.map Prod.swap (↑(capEdges (fanL (flatPosition a 0)
        (rest.map (fun c => flatPosition c 0)))) : Multiset (Pt3 × Pt3)) +
      ↑((cycEdges (a :: rest)).map
        (fun e => (flatPosition e.1 0, flatPosition e.2 0))) := by
    unfold edgePool
    rw [Multiset.map_add]
    show _ + Multiset.map Prod.swap (Multiset.map Prod.swap
      (↑(cycEdges ((a :: rest).map (fun c => flatPosition c 0))) :
        Multiset (Pt3 × Pt3))) = _
    rw [← cycEdges_map (fun c => flatPosition c 0) (a :: rest)]
    simp only [Multiset.map_add, Multiset.map_map, Multiset.map_coe]
    have hfun : List.map Prod.swap (List.map Prod.swap
        (List.map (fun e : Coord × Coord => (flatPosition e.1 0, flatPosition e.2 0))
          (cycEdges (a :: rest)))) =
        List.map (fun e : Coord × Coord => (flatPosition e.1 0, flatPosition e.2 0))
          (cycEdges (a :: rest)) := by
      rw [List.map_map, List.map_map]
      exact List.map_congr_left (fun e _ => rfl)
    rw [hfun]
  unfold flatPool
  rw [hE1, hE2]
  abel

theorem flatPosition_injective (h : ℚ) :
    Function.Injective (fun c : Coord => flatPosition c h) := by
  intro c c' hcc
  have h1 : c.1 = c'.1 := congrArg (fun p : Pt3 => p.1) hcc
  have h2 : c.2 = c'.2 := congrArg (fun p : Pt3 => p.2.1) hcc
  exact Prod.ext h1 h2

theorem mem_map_flatPosition_z (h : ℚ) (l : List Coord) :
    ∀ p ∈ l.map (fun c => flatPosition c h), p.2.2 = h := by
  intro p hp
  rcases List.mem_map.mp hp with ⟨c, _, rfl⟩
  rfl

theorem cycEdges_nodup {α : Type} (l : List α) (hnd : l.Nodup) :
    (cycEdges l).Nodup := by
  have h : ((cycEdges l).map Prod.fst).Nodup := by
    rw [cycEdges_map_fst]
    exact hnd
  exact h.of_map

theorem cycEdges_fst_map_eq {α β : Type} (a : α) (rest : List α) (g : α → β) :
    (cycEdges (a :: rest)).map (fun e => g e.1) = (a :: rest).map g := by
  rw [show (fun e : α × α => g e.1) = g ∘ Prod.fst from rfl, ← List.map_map,
    cycEdges_map_fst]

theorem cycEdges_snd_map_perm {α β : Type} (a : α) (rest : List α) (g : α → β) :
    ((cycEdges (a :: rest)).map (fun e => g e.2)).Perm ((a :: rest).map g) := by
  rw [show (fun e : α × α => g e.2) = g ∘ Prod.snd from rfl, ← List.map_map]
  exact (cycEdges_map_snd_perm a rest).map g

theorem flatPool_perfect (a : Coord) (rest : List Coord) (th : ℚ)
    (hnd : (a :: rest).Nodup) (h2 : 2 ≤ rest.length) (hth : th ≠ 0) :
    Multiset.map Prod.swap (flatPool a rest th) = flatPool a rest th ∧
      (flatPool a rest th).Nodup := by
  have hndT : ((a :: rest).map (fun c => flatPosition c th)).Nodup :=
    hnd.map (flatPosition_injective th)
  have hndB : ((a :: rest).map (fun c => flatPosition c 0)).Nodup :=
    hnd.map (flatPosition_injective 0)
  have hPT := fan_edgePool_perfect (flatPosition a th)
    (rest.map (fun c => flatPosition c th)).length
    (rest.map (fun c => flatPosition c th)) rfl (by exact hndT) (by simpa using h2)
  have hPB := fan_edgePool_perfect (flatPosition a 0)
    (rest.map (fun c => flatPosition c 0)).length
    (rest.map (fun c => flatPosition c 0)) rfl (by exact hndB) (by simpa using h2)
  have hmemT : ∀ x ∈ edgePool (flatPosition a th)
      (rest.map (fun c => flatPosition c th)), x.1.2.2 = th ∧ x.2.2.2 = th := by
    intro x hx
    obtain ⟨hx1, hx2⟩ := mem_edgePool_support _ _ x hx
    constructor
    · rcases List.mem_cons.mp hx1 with h | h
      · rw [h]
        rfl
      · exact mem_map_flatPosition_z th rest x.1 h
    · rcases List.mem_cons.mp hx2 with h | h
      · rw [h]
        rfl
      · exact mem_map_flatPosition_z th rest x.2 h
  have hmemB : ∀ x ∈ Multiset.map Prod.swap (edgePool (flatPosition a 0)
      (rest.map (fun c => flatPosition c 0))), x.1.2.2 = 0 ∧ x.2.2.2 = 0 := by
    intro x hx
    rcases Multiset.mem_map.mp hx with ⟨y, hy, rfl⟩
    obtain ⟨hy1, hy2⟩ := mem_edgePool_support _ _ y hy
    constructor
    · show y.2.2.2 = 0
      rcases List.mem_cons.mp hy2 with h | h
      · rw [h]
        rfl
      · exact mem_map_flatPosition_z 0 rest y.2 h
    · show y.1.2.2 = 0
      rcases List.mem_cons.mp hy1 with h | h
      · rw [h]
        rfl
      · exact mem_map_flatPosition_z 0 rest y.1 h
  have hmem2 : ∀ x ∈ (↑((cycEdges (a :: rest)).map
      (fun e => (flatPosition e.1 th, flatPosition e.1 0))) : Multiset (Pt3 × Pt3)),
      x.1.2.2 = th ∧ x.2.2.2 = 0 ∧ x.1.1 = x.2.1 ∧ x.1.2.1 = x.2.2.1 := by
    intro x hx
    rcases List.mem_map.mp (Multiset.mem_coe.mp hx) with ⟨e, _, rfl⟩
    exact ⟨rfl, rfl, rfl, rfl⟩
  have hmem5 : ∀ x ∈ (↑((cycEdges (a :: rest)).map
      (fun e => (flatPosition e.2 0, flatPosition e.2 th))) : Multiset (Pt3 × Pt3)),
      x.1.2.2 = 0 ∧ x.2.2.2 = th ∧ x.1.1 = x.2.1 ∧ x.1.2.1 = x.2.2.1 := by
    intro x hx
    rcases List.mem_map.mp (Multiset.mem_coe.mp hx) with ⟨e, _, rfl⟩
    exact ⟨rfl, rfl, rfl, rfl⟩
  have hcne := cycEdges_ne (a :: rest) hnd (by simp only [List.length_cons]; omega)
  have hmem3 : ∀ x ∈ (↑((cycEdges (a :: rest)).map
      (fun e => (flatPosition e.1 0, flatPosition e.2 th))) : Multiset (Pt3 × Pt3)),
      x.1.2.2 = 0 ∧ x.2.2.2 = th ∧ ¬(x.1.1 = x.2.1 ∧ x.1.2.1 = x.2.2.1) := by
    intro x hx
    rcases List.mem_map.mp (Multiset.mem_coe.mp hx) with ⟨e, he, rfl⟩
    exact ⟨rfl, rfl, fun hv => hcne e he (Prod.ext hv.1 hv.2)⟩
  have hmem6 : ∀ x ∈ (↑((cycEdges (a :: rest)).map
      (fun e => (flatPosition e.2 th, flatPosition e.1 0))) : Multiset (Pt3 × Pt3)),
      x.1.2.2 = th ∧ x.2.2.2 = 0 ∧ ¬(x.1.1 = x.2.1 ∧ x.1.2.1 = x.2.2.1) := by
    intro x hx
    rcases List.mem_map.mp (Multiset.mem_coe.mp hx) with ⟨e, he, rfl⟩
    exact ⟨rfl, rfl, fun hv => hcne e he (Prod.ext hv.1.symm hv.2.symm)⟩
  have hl2 : (cycEdges (a :: rest)).map
      (fun e => (flatPosition e.1 th, flatPosition e.1 0)) =
      (a :: rest).map (fun c => (flatPosition c th, flatPosition c 0)) :=
    cycEdges_fst_map_eq a rest (fun c => (flatPosition c th, flatPosition c 0))
  have hl5 : ((cycEdges (a :: rest)).map
      (fun e => (flatPosition e.2 0, flatPosition e.2 th))).Perm
      ((a :: rest).map (fun c => (flatPosition c 0, flatPosition c th))) :=
    cycEdges_snd_map_perm a rest (fun c => (flatPosition c 0, flatPosition c th))
  have hswap25 : Multiset.map Prod.swap (↑((cycEdges (a :: rest)).map
      (fun e => (flatPosition e.1 th, flatPosition e.1 0))) : Multiset (Pt3 × Pt3)) =
      ↑((cycEdges (a :: rest)).map
        (fun e => (flatPosition e.2 0, flatPosition e.2 th))) := by
    rw [Multiset.map_coe, List.map_map]
    rw [show (cycEdges (a :: rest)).map (Prod.swap ∘
        (fun e => (flatPosition e.1 th, flatPosition e.1 0))) =
      (a :: rest).map (fun c => (flatPosition c 0, flatPosition c th)) from
        cycEdges_fst_map_eq a rest (fun c => (flatPosition c 0, flatPosition c th))]
    exact (Multiset.coe_eq_coe.mpr hl5).symm
  have hswap52 : Multiset.map Prod.swap (↑((cycEdges (a :: rest)).map
      (fun e => (flatPosition e.2 0, flatPosition e.2 th))) : Multiset (Pt3 × Pt3)) =
      ↑((cycEdges (a :: rest)).map
        (fun e => (flatPosition e.1 th, flatPosition e.1 0))) := by
    rw [Multiset.map_coe, List.map_map, hl2]
    exact Multiset.coe_eq_coe.mpr
      (cycEdges_snd_map_perm a rest (fun c => (flatPosition c th, flatPosition c 0)))
  have hswap36 : Multiset.map Prod.swap (↑((cycEdges (a :: rest)).map
      (fun e => (flatPosition e.1 0, flatPosition e.2 th))) : Multiset (Pt3 × Pt3)) =
      ↑((cycEdges (a :: rest)).map
        (fun e => (flatPosition e.2 th, flatPosition e.1 0))) := by
    rw [Multiset.map_coe, List.map_map]
    exact congrArg (fun l : List (Pt3 × Pt3) => (↑l : Multiset (Pt3 × Pt3)))
      (List.map_congr_left (fun e _ => rfl))
  have hswap63 : Multiset.map Prod.swap (↑((cycEdges (a :: rest)).map
      (fun e => (flatPosition e.2 th, flatPosition e.1 0))) : Multiset (Pt3 × Pt3)) =
      ↑((cycEdges (a :: rest)).map
        (fun e => (flatPosition e.1 0, flatPosition e.2 th))) := by
    rw [Multiset.map_coe, List.map_map]
    exact congrArg (fun l : List (Pt3 × Pt3) => (↑l : Multiset (Pt3 × Pt3)))
      (List.map_congr_left (fun e _ => rfl))
  constructor
  · unfold flatPool
    rw [Multiset.map_add, Multiset.map_add, Multiset.map_add, Multiset.map_add,
      Multiset.map_add]
    rw [hPT.1, show Multiset.map Prod.swap (Multiset.map Prod.swap
        (edgePool (flatPosition a 0) (rest.map (fun c => flatPosition c 0)))) =
      Multiset.map Prod.swap
        (edgePool (flatPosition a 0) (rest.map (fun c => flatPosition c 0))) from
        congrArg (Multiset.map Prod.swap) hPB.1]
    rw [hswap25, hswap52, hswap36, hswap63]
    abel
  · unfold flatPool
    rw [Multiset.nodup_add]
    refine ⟨?_, ?_, ?_⟩
    · rw [Multiset.nodup_add]
      refine ⟨hPT.2, hPB.2.map Prod.swap_injective, ?_⟩
      exact Multiset.disjoint_left.mpr (fun {x} hx hy =>
        hth ((hmemT x hx).1.symm.trans (hmemB x hy).1))
    · rw [Multiset.nodup_add, Multiset.nodup_add, Multiset.nodup_add]
      have hinj2 : Function.Injective
          (fun c : Coord => (flatPosition c th, flatPosition c 0)) :=
        fun c c' h => flatPosition_injective th (congrArg Prod.fst h)
      have hinj5 : Function.Injective
          (fun c : Coord => (flatPosition c 0, flatPosition c th)) :=
        fun c c' h => flatPosition_injective 0 (congrArg Prod.fst h)
      have hesnd := cycEdges_nodup (a :: rest) hnd
      have hinj3 : Function.Injective
          (fun e : Coord × Coord => (flatPosition e.1 0, flatPosition e.2 th)) := by
        intro e e' h
        exact Prod.ext (flatPosition_injective 0 (congrArg Prod.fst h))
          (flatPosition_injective th (congrArg Prod.snd h))
      have hinj6 : Function.Injective
          (fun e : Coord × Coord => (flatPosition e.2 th, flatPosition e.1 0)) := by
        intro e e' h
        exact Prod.ext (flatPosition_injective 0 (congrArg Prod.snd h))
          (flatPosition_injective th (congrArg Prod.fst h))
      refine ⟨⟨⟨?_, ?_, ?_⟩, ?_, ?_⟩, ?_, ?_⟩
      · rw [Multiset.coe_nodup, hl2]
        exact hnd.map hinj2
      · rw [Multiset.coe_nodup]
        exact hl5.nodup_iff.mpr (hnd.map hinj5)
      · exact Multiset.disjoint_left.mpr (fun {x} hx hy =>
          hth ((hmem2 x hx).1.symm.trans (hmem5 x hy).1))
      · rw [Multiset.coe_nodup]
        exact hesnd.map hinj3
      · exact Multiset.disjoint_left.mpr (fun {x} hx hy => by
          rcases Multiset.mem_add.mp hx with h | h
          · exact hth ((hmem2 x h).1.symm.trans (hmem3 x hy).1)
          · exact (hmem3 x hy).2.2 ⟨(hmem5 x h).2.2.1, (hmem5 x h).2.2.2⟩)
      · rw [Multiset.coe_nodup]
        exact hesnd.map hinj6
      · exact Multiset.disjoint_left.mpr (fun {x} hx hy => by
          rcases Multiset.mem_add.mp hx with h | h
          · rcases Multiset.mem_add.mp h with h' | h'
            · exact (hmem6 x hy).2.2 ⟨(hmem2 x h').2.2.1, (hmem2 x h').2.2.2⟩
            · exact hth ((hmem6 x hy).1.symm.trans (hmem5 x h').1)
          · exact hth ((hmem6 x hy).1.symm.trans (hmem3 x h).1))
    · exact Multiset.disjoint_left.mpr (fun {x} hx hy => by
        rcases Multiset.mem_add.mp hx with hT | hB
        · rcases Multiset.mem_add.mp hy with h | h
          · rcases Multiset.mem_add.mp h with h' | h'
            · rcases Multiset.mem_add.mp h' with h'' | h''
              · exact hth ((hmemT x hT).2.symm.trans (hmem2 x h'').2.1)
              · exact hth ((hmemT x hT).1.symm.trans (hmem5 x h'').1)
            · exact hth ((hmemT x hT).1.symm.trans (hmem3 x h').1)
          · exact hth ((hmemT x hT).2.symm.trans (hmem6 x h).2.1)
        · rcases Multiset.mem_add.mp hy with h | h
          · rcases Multiset.mem_add.mp h with h' | h'
            · rcases Multiset.mem_add.mp h' with h'' | h''
              · exact hth ((hmem2 x h'').1.symm.trans (hmemB x hB).1)
              · exact hth ((hmem5 x h'').2.1.symm.trans (hmemB x hB).2)
            · exact hth ((hmem3 x h').2.1.symm.trans (hmemB x hB).2)
          · exact hth ((hmem6 x h).1.symm.trans (hmemB x hB).1))

/-- Auxiliary manifold theorem for the flat, hole-free, strictly convex
case: every half-edge of the built solid occurs exactly once, and its
reversal also occurs exactly once — the watertight closed-2-manifold
property of spec 5, mechanized for this class of inputs. -/
theorem flat_convex_manifold (p : Polygon) (o : MeshOptions) (m : MeshOutput)
    (hholes : p.holes = []) (hflat : o.ellipsoid = none) (hth : o.thickness ≠ 0)
    (hnd : p.outer.Nodup) (hcv : chordConvex p.outer) (h3 : 3 ≤ p.outer.length)
    (hm : getMesh p o = .ok m) :
    ∀ e ∈ halfEdges m, (↑(halfEdges m) : Multiset (Pt3 × Pt3)).count e = 1 ∧
      (↑(halfEdges m) : Multiset (Pt3 × Pt3)).count e.swap = 1 := by
  obtain ⟨hPos, hIdx⟩ := getMesh_flat_fields p o m hholes hflat hm
  rcases houter : p.outer with _ | ⟨a, rest⟩
  · rw [houter] at h3
    simp at h3
  · rw [houter] at hPos hIdx hcv hnd h3
    rw [capTris_single a rest hcv] at hIdx
    have hdecomp := halfEdges_flat_decomp m a rest o.thickness hPos hIdx
    have h2 : 2 ≤ rest.length := by
      simp only [List.length_cons] at h3
      omega
    have hperf := flatPool_perfect a rest o.thickness hnd h2 hth
    intro e he
    have hmem : e ∈ (↑(halfEdges m) : Multiset (Pt3 × Pt3)) := Multiset.mem_coe.mpr he
    rw [hdecomp] at hmem
    rw [hdecomp]
    have hone : (flatPool a rest o.thickness).count e = 1 :=
      le_antisymm (Multiset.nodup_iff_count_le_one.mp hperf.2 e)
        (Multiset.one_le_count_iff_mem.mpr hmem)
    refine ⟨hone, ?_⟩
    have hsw : (flatPool a rest o.thickness).count e.swap =
        (Multiset.map Prod.swap (flatPool a rest o.thickness)).count e.swap := by
      rw [hperf.1]
    rw [hsw, Multiset.count_map_eq_count' Prod.swap _ Prod.swap_injective e]
    exact hone
